import Mathlib

/-!
# Needleman-Wunsch edit distance: the three engines of `Needleman-Wunsch-recmemo.c`

A shallow embedding of `EditDistance_NW_RecMemo`, `EditDistance_NW_Rec`, `kronecker`,
`EditDistance_NW_iterative` and `EditDistance_NW_cache_aware`, and proofs about them.

Modelling conventions.
* A `char *` sequence is a buffer `Nat → Char` together with its length argument; a read
  beyond the length (the recursive engine reads `X[M]` and `Y[N]`) yields whatever the
  buffer holds there.
* A `long **` table is a `Table`: its allocated dimensions and, per cell, `none` while the
  cell has never been assigned (fresh `malloc` memory) or `some v`. A read of an unassigned
  or out-of-range cell and a write to an out-of-range cell make the computation fail
  (`none`), so a result `some v` also tells that every table access was in range and
  initialised.
* Sequence lengths and `long` values are unbounded (`Nat` lengths and row and column
  counters, `Int` values): lengths are taken below `INT_MAX`, where an `int` counter can
  index the table, and costs in the range where `long` does not wrap.
* `block_size` is a free `size_t` argument, so the tile loops of the cache-aware engine
  are modelled with their C types: the `int` counters `I`, `J`, `i`, `j`, `i_end`, `j_end`
  are integers, compared with and advanced by `size_t` values through the conversions
  `toSizeT` (modulo `2^64`) and `toInt32` (modulo `2^32`, into the signed range), and a
  table access at a negative index is out of range.
* Loops run on fuel: `none` also stands for a loop that does not terminate (a block size
  that leaves a tile counter where it is).
* `characters_to_base.h` and `Needleman-Wunsch-recmemo.h` are not part of the sources: the
  classifier and the three cost constants are parameters.
-/

namespace NW

/-- Modelled from the spec: the base classifier of `characters_to_base.h`, which is missing
from the sources; an external collaborator that answers `isBase`, `isUnknownBase` and
`isSameBase`. Its initialisation hook `_init_base_match` and its diagnostic hook
`ManageBaseError` do not take part in the result and are left out. -/
structure Classifier where
  isBase : Char → Bool
  isUnknownBase : Char → Bool
  isSameBase : Char → Char → Bool

/-- Modelled from the spec: the cost constants of `Needleman-Wunsch-recmemo.h`, which is
missing from the sources; the spec's cost model makes them fixed non-negative weights. -/
structure Costs where
  SUBSTITUTION_COST : Nat
  SUBSTITUTION_UNKNOWN_COST : Nat
  INSERTION_COST : Nat

/-- A `char *` sequence buffer. -/
abbrev Buf := Nat → Char

/-- The buffer of a C string holding the characters of `l` (followed by NUL bytes). -/
def Buf.ofList (l : List Char) : Buf := fun i => l.getD i (Char.ofNat 0)

/-- A two-dimensional `long **` table with `rows × cols` allocated cells. -/
structure Table where
  rows : Nat
  cols : Nat
  cell : Nat → Nat → Option Int

/-- The table after the `malloc` calls: allocated, no cell assigned. -/
def Table.alloc (rows cols : Nat) : Table := ⟨rows, cols, fun _ _ => none⟩

/-- The read `t[i][j]`. -/
def Table.get (t : Table) (i j : Nat) : Option Int :=
  if i < t.rows ∧ j < t.cols then t.cell i j else none

/-- The assignment `t[i][j] = v`. -/
def Table.set (t : Table) (i j : Nat) (v : Int) : Option Table :=
  if i < t.rows ∧ j < t.cols then
    some ⟨t.rows, t.cols, fun a b => if a = i ∧ b = j then some v else t.cell a b⟩
  else none

/-- The loop `for (k = k0; k <= hi; k += step) body(k)` over a state `σ`; `fuel` bounds the
number of evaluations of the loop test. -/
def forLoop {σ : Type} (hi step : Nat) (body : Nat → σ → Option σ) : Nat → Nat → σ → Option σ
  | 0, _, _ => none
  | fuel + 1, k, s =>
    if k ≤ hi then (body k s).bind (forLoop hi step body fuel (k + step)) else some s

/-! ## The memoized recursive engine -/

/-- `#define NOT_YET_COMPUTED -1L` -/
def NOT_YET_COMPUTED : Int := -1

/-- `struct NW_MemoContext` -/
structure NW_MemoContext where
  X : Buf
  Y : Buf
  M : Nat
  N : Nat
  memo : Table

/-- `EditDistance_NW_RecMemo(c, i, j)`: returns `phi(i,j)` and the context with its updated
memo table; `fuel` bounds the nesting depth of the recursion. -/
def EditDistance_NW_RecMemo (cl : Classifier) (k : Costs) :
    Nat → NW_MemoContext → Nat → Nat → Option (Int × NW_MemoContext)
  | 0, _, _, _ => none
  | fuel + 1, c, i, j =>
    (c.memo.get i j).bind fun m =>
    if m = NOT_YET_COMPUTED then
      let Xi := c.X i
      let Yj := c.Y j
      let computed : Option (Int × NW_MemoContext) :=
        if i = c.M then
          if j = c.N then some (0, c)
          else
            (EditDistance_NW_RecMemo cl k fuel c i (j + 1)).bind fun r =>
            some ((if cl.isBase Yj then (k.INSERTION_COST : Int) else 0) + r.1, r.2)
        else if j = c.N then
          (EditDistance_NW_RecMemo cl k fuel c (i + 1) j).bind fun r =>
          some ((if cl.isBase Xi then (k.INSERTION_COST : Int) else 0) + r.1, r.2)
        else if !cl.isBase Xi then
          EditDistance_NW_RecMemo cl k fuel c (i + 1) j
        else if !cl.isBase Yj then
          EditDistance_NW_RecMemo cl k fuel c i (j + 1)
        else
          (EditDistance_NW_RecMemo cl k fuel c (i + 1) (j + 1)).bind fun r1 =>
          let min : Int :=
            (if cl.isUnknownBase Xi then (k.SUBSTITUTION_UNKNOWN_COST : Int)
             else if cl.isSameBase Xi Yj then 0 else (k.SUBSTITUTION_COST : Int)) + r1.1
          (EditDistance_NW_RecMemo cl k fuel r1.2 (i + 1) j).bind fun r2 =>
          let cas2 : Int := (k.INSERTION_COST : Int) + r2.1
          let min : Int := if cas2 < min then cas2 else min
          (EditDistance_NW_RecMemo cl k fuel r2.2 i (j + 1)).bind fun r3 =>
          let cas3 : Int := (k.INSERTION_COST : Int) + r3.1
          let min : Int := if cas3 < min then cas3 else min
          some (min, r3.2)
      computed.bind fun r =>
      (r.2.memo.set i j r.1).bind fun memo =>
      (memo.get i j).bind fun v =>
      some (v, ⟨r.2.X, r.2.Y, r.2.M, r.2.N, memo⟩)
    else some (m, c)

/-- The allocation of `ctx.memo` and its initialisation to `NOT_YET_COMPUTED`
(`for i <= M`, `for j <= N`). -/
def memoInit (M N : Nat) : Option Table :=
  forLoop M 1 (fun i t =>
    forLoop N 1 (fun j t => t.set i j NOT_YET_COMPUTED) (N + 2) 0 t) (M + 2) 0
    (Table.alloc (M + 1) (N + 1))

/-- `EditDistance_NW_Rec(A, lengthA, B, lengthB)` -/
def EditDistance_NW_Rec (cl : Classifier) (k : Costs) (A : Buf) (lengthA : Nat) (B : Buf)
    (lengthB : Nat) : Option Int :=
  let X : Buf := if lengthA ≥ lengthB then A else B
  let M : Nat := if lengthA ≥ lengthB then lengthA else lengthB
  let Y : Buf := if lengthA ≥ lengthB then B else A
  let N : Nat := if lengthA ≥ lengthB then lengthB else lengthA
  (memoInit M N).bind fun memo =>
  (EditDistance_NW_RecMemo cl k (M + N + 1) ⟨X, Y, M, N, memo⟩ 0 0).bind fun r =>
  some r.1

/-! ## The iterative and the cache-aware engines -/

/-- `kronecker(A, i, B, j)` -/
def kronecker (cl : Classifier) (A : Buf) (i : Nat) (B : Buf) (j : Nat) : Int :=
  if cl.isUnknownBase (A i) || cl.isUnknownBase (B j) then 1
  else if cl.isSameBase (A i) (B j) then 0
  else 1

/-- The common prologue of both tabulating engines: the allocation, `tableau[0][0] = 0`, and
the two loops that fill column 0 and row 0. -/
def initBorders (cl : Classifier) (A : Buf) (lengthA : Nat) (B : Buf) (lengthB : Nat) :
    Option Table :=
  ((Table.alloc (lengthA + 1) (lengthB + 1)).set 0 0 0).bind fun t =>
  (forLoop lengthA 1 (fun i t =>
      (t.get (i - 1) 0).bind fun p =>
      t.set i 0 ((if cl.isBase (A (i - 1)) then 2 else 0) + p)) (lengthA + 1) 1 t).bind fun t =>
  forLoop lengthB 1 (fun j t =>
      (t.get 0 (j - 1)).bind fun p =>
      t.set 0 j ((if cl.isBase (B (j - 1)) then 2 else 0) + p)) (lengthB + 1) 1 t

/-- The body of the innermost loop of both tabulating engines: the assignment of
`tableau[i][j]` from its three neighbours. -/
def cellStep (cl : Classifier) (A B : Buf) (i j : Nat) (t : Table) : Option Table :=
  (t.get (i - 1) (j - 1)).bind fun d =>
  let align : Int := d + kronecker cl A (i - 1) B (j - 1)
  (t.get (i - 1) j).bind fun u =>
  let delete : Int := (if cl.isBase (A (i - 1)) then 2 else 0) + u
  (t.get i (j - 1)).bind fun l =>
  let insert : Int := (if cl.isBase (B (j - 1)) then 2 else 0) + l
  let min : Int := align
  let min : Int := if delete < min then delete else min
  let min : Int := if insert < min then insert else min
  if !cl.isBase (A (i - 1)) then
    (t.get (i - 1) j).bind fun v => t.set i j v
  else if !cl.isBase (B (j - 1)) then
    (t.get i (j - 1)).bind fun v => t.set i j v
  else t.set i j min

/-- The table `EditDistance_NW_iterative` has built when it reaches its `return`. -/
def iterativeTable (cl : Classifier) (A : Buf) (lengthA : Nat) (B : Buf) (lengthB : Nat) :
    Option Table :=
  (initBorders cl A lengthA B lengthB).bind fun t =>
  forLoop lengthA 1 (fun i t =>
    forLoop lengthB 1 (fun j t => cellStep cl A B i j t) (lengthB + 1) 1 t) (lengthA + 1) 1 t

/-- `EditDistance_NW_iterative(A, lengthA, B, lengthB)` -/
def EditDistance_NW_iterative (cl : Classifier) (A : Buf) (lengthA : Nat) (B : Buf)
    (lengthB : Nat) : Option Int :=
  (iterativeTable cl A lengthA B lengthB).bind fun t => t.get lengthA lengthB

/-- `INT_MAX`, for the 32-bit `int` of the loop counters. -/
def INT_MAX : Nat := 2147483647

/-- The conversion of an `int` to the 64-bit `size_t`: the value modulo `2^64`. -/
def toSizeT (x : Int) : Nat := (x % 18446744073709551616).toNat

/-- The conversion of a `size_t` to the 32-bit `int`, as compilers define it where the
value does not fit: the value modulo `2^32`, taken in the signed range. -/
def toInt32 (n : Nat) : Int :=
  if n % 4294967296 < 2147483648 then ((n % 4294967296 : Nat) : Int)
  else ((n % 4294967296 : Nat) : Int) - 4294967296

/-- The `size_t` sum `K + n` of an `int` `K` and a `size_t` `n`. -/
def sizeAdd (K : Int) (n : Nat) : Nat := (toSizeT K + n) % 18446744073709551616

/-- A `for` loop `for (k = k0; test(k); k = next(k)) body(k)` over a state `σ`; `fuel`
bounds the number of evaluations of the loop test. -/
def forGen {ι σ : Type} (test : ι → Bool) (next : ι → ι) (body : ι → σ → Option σ) :
    Nat → ι → σ → Option σ
  | 0, _, _ => none
  | fuel + 1, k, s =>
    if test k then (body k s).bind (forGen test next body fuel (next k)) else some s

/-- The tile loop `for (int K = k0; K <= hi; K += step) body(K)` with `size_t` `hi` and
`step`: the test converts `K` to `size_t`, the update adds in `size_t` and converts back
to `int`. A counter that passes the test is one of `0 .. hi` (`hi` is below `INT_MAX`),
and a loop that ends passes no counter twice, so it has evaluated its test at most
`hi + 2` times: with this fuel, `none` is a failed body or a loop that never ends. -/
def tileLoop {σ : Type} (hi step : Nat) (body : Int → σ → Option σ) (k0 : Int) (s : σ) :
    Option σ :=
  forGen (fun K => decide (toSizeT K ≤ hi)) (fun K => toInt32 (sizeAdd K step)) body
    (hi + 2) k0 s

/-- The loop `for (int k = lo; k <= hi; k++) body(k)` with `int` `hi`, which evaluates its
test once more than it runs its body. In the engine `hi` is `i_end` or `j_end`, at most a
sequence length and so below `INT_MAX`: `k++` does not overflow. -/
def intLoop {σ : Type} (hi : Int) (body : Int → σ → Option σ) (lo : Int) (s : σ) :
    Option σ :=
  forGen (fun k => decide (k ≤ hi)) (fun k => k + 1) body ((hi + 1 - lo).toNat + 1) lo s

/-- The read `t[i][j]` with `int` indices: a negative index is out of range. -/
def Table.getInt (t : Table) (i j : Int) : Option Int :=
  if 0 ≤ i ∧ 0 ≤ j then t.get i.toNat j.toNat else none

/-- The assignment `t[i][j] = v` with `int` indices. -/
def Table.setInt (t : Table) (i j : Int) (v : Int) : Option Table :=
  if 0 ≤ i ∧ 0 ≤ j then t.set i.toNat j.toNat v else none

/-- The body of the innermost loop of the cache-aware engine, with its `int` indices `i`
and `j`: the same statements as `cellStep`. Its first statement reads
`tableau[i-1][j-1]`, which fails when `i - 1` or `j - 1` is negative, so what `A[i-1]`
or `B[j-1]` would hold at a negative index never reaches a result. -/
def cellStepInt (cl : Classifier) (A B : Buf) (i j : Int) (t : Table) : Option Table :=
  (t.getInt (i - 1) (j - 1)).bind fun d =>
  let align : Int := d + kronecker cl A (i - 1).toNat B (j - 1).toNat
  (t.getInt (i - 1) j).bind fun u =>
  let delete : Int := (if cl.isBase (A (i - 1).toNat) then 2 else 0) + u
  (t.getInt i (j - 1)).bind fun l =>
  let insert : Int := (if cl.isBase (B (j - 1).toNat) then 2 else 0) + l
  let min : Int := align
  let min : Int := if delete < min then delete else min
  let min : Int := if insert < min then insert else min
  if !cl.isBase (A (i - 1).toNat) then
    (t.getInt (i - 1) j).bind fun v => t.setInt i j v
  else if !cl.isBase (B (j - 1).toNat) then
    (t.getInt i (j - 1)).bind fun v => t.setInt i j v
  else t.setInt i j min

/-- The table `EditDistance_NW_cache_aware` has built when it reaches its `return`. -/
def cacheAwareTable (cl : Classifier) (A : Buf) (lengthA : Nat) (B : Buf) (lengthB : Nat)
    (block_size : Nat) : Option Table :=
  (initBorders cl A lengthA B lengthB).bind fun t =>
  tileLoop lengthA block_size (fun I t =>
    tileLoop lengthB block_size (fun J t =>
      let i_end : Int :=
        toInt32 (if sizeAdd I block_size < lengthA then sizeAdd I block_size else lengthA)
      let j_end : Int :=
        toInt32 (if sizeAdd J block_size < lengthB then sizeAdd J block_size else lengthB)
      intLoop i_end (fun i t =>
        intLoop j_end (fun j t => cellStepInt cl A B i j t) J t) I t) 1 t) 1 t

/-- `EditDistance_NW_cache_aware(A, lengthA, B, lengthB, block_size)` -/
def EditDistance_NW_cache_aware (cl : Classifier) (A : Buf) (lengthA : Nat) (B : Buf)
    (lengthB : Nat) (block_size : Nat) : Option Int :=
  (cacheAwareTable cl A lengthA B lengthB block_size).bind fun t => t.get lengthA lengthB

/-! ## A concrete classifier and cost model, for examples -/

/-- A classifier over `A C G T` with the ambiguity code `N`; two bases are the same when
they are the same character. -/
def dna : Classifier where
  isBase c := c = 'A' || c = 'C' || c = 'G' || c = 'T' || c = 'N'
  isUnknownBase c := c = 'N'
  isSameBase x y := x = y

/-- The weights of the spec's concrete scenario: substitution 2, unknown 1, indel 2. -/
def scenarioCosts : Costs := ⟨2, 1, 2⟩

/-- The characters `A[0..n)` of a buffer. -/
def pfx (A : Buf) (n : Nat) : List Char := (List.range n).map A

/-- The recognized bases of a sequence, in order. -/
def bases (cl : Classifier) (l : List Char) : List Char := l.filter cl.isBase

/-- What `kronecker` charges for aligning the characters `x` and `y`. -/
def pairCost (cl : Classifier) (x y : Char) : Int :=
  if cl.isUnknownBase x || cl.isUnknownBase y then 1
  else if cl.isSameBase x y then 0
  else 1

/-- What `EditDistance_NW_RecMemo` charges for aligning `x` (from `X`) with `y` (from `Y`). -/
def recPairCost (cl : Classifier) (k : Costs) (x y : Char) : Int :=
  if cl.isUnknownBase x then (k.SUBSTITUTION_UNKNOWN_COST : Int)
  else if cl.isSameBase x y then 0 else (k.SUBSTITUTION_COST : Int)

/-- One row of the Needleman-Wunsch recurrence: the distances from `x :: xs` to every suffix
of the second sequence, given those from `xs` (`prev`). -/
def nwRow {α : Type} (c : α → α → Int) (ins : Int) (x : α) (prev : List α → Int) :
    List α → Int
  | [] => ins + prev []
  | y :: ys => min (min (c x y + prev ys) (ins + prev (y :: ys))) (ins + nwRow c ins x prev ys)

/-- The Needleman-Wunsch recurrence on two sequences of bases, with pair cost `c` and gap
cost `ins`. -/
def nwDist {α : Type} (c : α → α → Int) (ins : Int) : List α → List α → Int
  | [], ys => ins * ys.length
  | x :: xs, ys => nwRow c ins x (nwDist c ins xs) ys

/-- A column of a global alignment: two aligned symbols, or one symbol facing a gap. -/
inductive Column (α : Type) where
  | pair (x y : α)
  | gapBelow (x : α)
  | gapAbove (y : α)

/-- The symbol a column contributes to the first sequence. -/
def Column.top {α : Type} : Column α → Option α
  | .pair x _ => some x
  | .gapBelow x => some x
  | .gapAbove _ => none

/-- The symbol a column contributes to the second sequence. -/
def Column.bot {α : Type} : Column α → Option α
  | .pair _ y => some y
  | .gapBelow _ => none
  | .gapAbove y => some y

/-- The cost of a column: the pair cost, or the gap cost. -/
def Column.cost {α : Type} (c : α → α → Int) (ins : Int) : Column α → Int
  | .pair x y => c x y
  | .gapBelow _ => ins
  | .gapAbove _ => ins

/-- The total cost of an alignment. -/
def alignCost {α : Type} (c : α → α → Int) (ins : Int) (al : List (Column α)) : Int :=
  (al.map (Column.cost c ins)).sum

/-- The list `al` of columns is a global alignment of `xs` with `ys`. -/
def Aligns {α : Type} (al : List (Column α)) (xs ys : List α) : Prop :=
  al.filterMap Column.top = xs ∧ al.filterMap Column.bot = ys

/-- The value `v` is the minimum cost of a global alignment of `xs` with `ys`: some
alignment costs `v` and none costs less. -/
def IsMinAlignCost {α : Type} (c : α → α → Int) (ins : Int) (xs ys : List α) (v : Int) :
    Prop :=
  (∃ al, Aligns al xs ys ∧ alignCost c ins al = v) ∧
    ∀ al, Aligns al xs ys → v ≤ alignCost c ins al

/-- The table `t` has the dimensions `rows × cols` and each cell `(a, b)` of the region `R`
lies in the table and has been assigned the value `V a b`. -/
def Table.Holds (t : Table) (rows cols : Nat) (V : Nat → Nat → Int) (R : Nat → Nat → Prop) :
    Prop :=
  t.rows = rows ∧ t.cols = cols ∧ ∀ a b, R a b → a < rows ∧ b < cols ∧ t.cell a b = some (V a b)

/-- The value of cell `(i, j)` of the tabulating engines: the recurrence on the bases of the
prefixes `A[0..i)` and `B[0..j)`, read from their last character backwards. -/
def tabValue (cl : Classifier) (A B : Buf) (i j : Nat) : Int :=
  nwDist (pairCost cl) 2 (bases cl (pfx A i)).reverse (bases cl (pfx B j)).reverse

/-- The characters `X[i..M)` of a buffer. -/
def sfx (X : Buf) (M i : Nat) : List Char := (List.range' i (M - i)).map X

/-- The value `phi(i, j)` of the recursive engine: the recurrence on the bases of the
suffixes `X[i..M)` and `Y[j..N)`. -/
def recValue (cl : Classifier) (k : Costs) (X : Buf) (M : Nat) (Y : Buf) (N : Nat)
    (i j : Nat) : Int :=
  nwDist (recPairCost cl k) (k.INSERTION_COST : Int) (bases cl (sfx X M i)) (bases cl (sfx Y N j))

/-- The memo table has the dimensions `(M+1) × (N+1)` and each of its cells holds either
`NOT_YET_COMPUTED` or its value `phi`. -/
def MemoOK (cl : Classifier) (k : Costs) (X : Buf) (M : Nat) (Y : Buf) (N : Nat)
    (t : Table) : Prop :=
  t.rows = M + 1 ∧ t.cols = N + 1 ∧ ∀ a b, a ≤ M → b ≤ N →
    t.cell a b = some NOT_YET_COMPUTED ∨ t.cell a b = some (recValue cl k X M Y N a b)

/-! ## The recursive engine with a trace of its calls and assignments -/

/-- What the recursive engine does to the outside of an invocation: `call pi pj i j depth`
is the recursive call that the invocation at `(pi, pj)` makes at `(i, j)`, the callee being
nested `depth` levels below the first invocation; `store i j old v` is the assignment
`memo[i][j] = v`, the cell holding `old` just before. -/
inductive MemoEvent where
  | call (pi pj i j depth : Nat)
  | store (i j : Nat) (old : Option Int) (v : Int)
  deriving DecidableEq

/-- `EditDistance_NW_RecMemo(c, i, j)` again, at nesting depth `d`, appending to `log` each
recursive call it makes and each assignment to the memo table. -/
def EditDistance_NW_RecMemoTraced (cl : Classifier) (k : Costs) :
    Nat → NW_MemoContext → Nat → Nat → Nat → List MemoEvent →
      Option (Int × NW_MemoContext × List MemoEvent)
  | 0, _, _, _, _, _ => none
  | fuel + 1, c, i, j, d, log =>
    (c.memo.get i j).bind fun m =>
    if m = NOT_YET_COMPUTED then
      let Xi := c.X i
      let Yj := c.Y j
      let computed : Option (Int × NW_MemoContext × List MemoEvent) :=
        if i = c.M then
          if j = c.N then some (0, c, log)
          else
            (EditDistance_NW_RecMemoTraced cl k fuel c i (j + 1) (d + 1)
              (log ++ [MemoEvent.call i j i (j + 1) (d + 1)])).bind fun r =>
            some ((if cl.isBase Yj then (k.INSERTION_COST : Int) else 0) + r.1, r.2)
        else if j = c.N then
          (EditDistance_NW_RecMemoTraced cl k fuel c (i + 1) j (d + 1)
            (log ++ [MemoEvent.call i j (i + 1) j (d + 1)])).bind fun r =>
          some ((if cl.isBase Xi then (k.INSERTION_COST : Int) else 0) + r.1, r.2)
        else if !cl.isBase Xi then
          EditDistance_NW_RecMemoTraced cl k fuel c (i + 1) j (d + 1)
            (log ++ [MemoEvent.call i j (i + 1) j (d + 1)])
        else if !cl.isBase Yj then
          EditDistance_NW_RecMemoTraced cl k fuel c i (j + 1) (d + 1)
            (log ++ [MemoEvent.call i j i (j + 1) (d + 1)])
        else
          (EditDistance_NW_RecMemoTraced cl k fuel c (i + 1) (j + 1) (d + 1)
            (log ++ [MemoEvent.call i j (i + 1) (j + 1) (d + 1)])).bind fun r1 =>
          let min : Int :=
            (if cl.isUnknownBase Xi then (k.SUBSTITUTION_UNKNOWN_COST : Int)
             else if cl.isSameBase Xi Yj then 0 else (k.SUBSTITUTION_COST : Int)) + r1.1
          (EditDistance_NW_RecMemoTraced cl k fuel r1.2.1 (i + 1) j (d + 1)
            (r1.2.2 ++ [MemoEvent.call i j (i + 1) j (d + 1)])).bind fun r2 =>
          let cas2 : Int := (k.INSERTION_COST : Int) + r2.1
          let min : Int := if cas2 < min then cas2 else min
          (EditDistance_NW_RecMemoTraced cl k fuel r2.2.1 i (j + 1) (d + 1)
            (r2.2.2 ++ [MemoEvent.call i j i (j + 1) (d + 1)])).bind fun r3 =>
          let cas3 : Int := (k.INSERTION_COST : Int) + r3.1
          let min : Int := if cas3 < min then cas3 else min
          some (min, r3.2)
      computed.bind fun r =>
      (r.2.1.memo.set i j r.1).bind fun memo =>
      (memo.get i j).bind fun v =>
      some (v, ⟨r.2.1.X, r.2.1.Y, r.2.1.M, r.2.1.N, memo⟩,
        r.2.2 ++ [MemoEvent.store i j (r.2.1.memo.get i j) r.1])
    else some (m, c, log)

/-- A memo table of `(M+1) × (N+1)` cells that all hold `NOT_YET_COMPUTED`. -/
def freshMemo (M N : Nat) : Table := ⟨M + 1, N + 1, fun _ _ => some NOT_YET_COMPUTED⟩

/-- The cells assigned by the `store` events of a trace, in order. -/
def storePositions (ev : List MemoEvent) : List (Nat × Nat) :=
  ev.filterMap fun e =>
    match e with
    | MemoEvent.store i j _ _ => some (i, j)
    | MemoEvent.call _ _ _ _ _ => none

/-- What a trace event of a run over `X[0..M)`, `Y[0..N)` that started at a position of
index sum `s0` is expected to satisfy: a recursive call goes to a position inside the table
that is not before the caller's in either index and is strictly beyond it in index sum, at
a depth of at most the distance covered; an assignment is inside the table, to a cell that
holds `NOT_YET_COMPUTED`, of the value `phi` of the cell. -/
def MemoEvent.OK (cl : Classifier) (k : Costs) (X : Buf) (M : Nat) (Y : Buf) (N : Nat)
    (s0 : Nat) : MemoEvent → Prop
  | MemoEvent.call pi pj i j d =>
    pi ≤ i ∧ i ≤ M ∧ pj ≤ j ∧ j ≤ N ∧ pi + pj < i + j ∧ d + s0 ≤ i + j
  | MemoEvent.store i j old v =>
    i ≤ M ∧ j ≤ N ∧ old = some NOT_YET_COMPUTED ∧ v = recValue cl k X M Y N i j

/-- The memo table has the dimensions `(M+1) × (N+1)` and every cell of it has been
assigned (the sentinel, or any value). -/
def MemoFull (M N : Nat) (t : Table) : Prop :=
  t.rows = M + 1 ∧ t.cols = N + 1 ∧ ∀ a b, a ≤ M → b ≤ N → ∃ v, t.cell a b = some v

/-- What a `call` event of a run over a table of `(M+1) × (N+1)` cells that started at a
position of index sum `s0` is expected to satisfy (nothing is asked of a `store`). -/
def MemoEvent.Advances (M N s0 : Nat) : MemoEvent → Prop
  | MemoEvent.call pi pj i j d =>
    pi ≤ i ∧ i ≤ M ∧ pj ≤ j ∧ j ≤ N ∧ pi + pj < i + j ∧ d + s0 ≤ i + j
  | MemoEvent.store _ _ _ _ => True

/-- The relation between the memo table `t` before and `t'` after a piece of a run with
trace `ev`, all of whose assignments are at positions of index sum at least `s`. -/
def MemoRun (cl : Classifier) (k : Costs) (X : Buf) (M : Nat) (Y : Buf) (N : Nat)
    (s0 s : Nat) (t : Table) (ev : List MemoEvent) (t' : Table) : Prop :=
  MemoOK cl k X M Y N t' ∧
  (∀ e ∈ ev, MemoEvent.OK cl k X M Y N s0 e) ∧
  (∀ p ∈ storePositions ev, t.cell p.1 p.2 = some NOT_YET_COMPUTED ∧
    t'.cell p.1 p.2 ≠ some NOT_YET_COMPUTED ∧ s ≤ p.1 + p.2) ∧
  (∀ a b, (a, b) ∉ storePositions ev → t'.cell a b = t.cell a b) ∧
  (storePositions ev).Nodup

/-! ## The order in which the cache-aware engine walks through the table -/

/-- One execution of a loop body of a tabulating engine: `column i` is iteration `i` of the
loop that fills column 0, `row j` iteration `j` of the loop that fills row 0, and `cell i j`
one execution of the innermost body of the sweep, which assigns `tableau[i][j]`. -/
inductive TabEvent where
  | column (i : Nat)
  | row (j : Nat)
  | cell (i j : Int)
  deriving DecidableEq

/-- What the loop body named by an event does to the table. -/
def tabStep (cl : Classifier) (A B : Buf) (t : Table) : TabEvent → Option Table
  | TabEvent.column i =>
    (t.get (i - 1) 0).bind fun p => t.set i 0 ((if cl.isBase (A (i - 1)) then 2 else 0) + p)
  | TabEvent.row j =>
    (t.get 0 (j - 1)).bind fun p => t.set 0 j ((if cl.isBase (B (j - 1)) then 2 else 0) + p)
  | TabEvent.cell i j => cellStepInt cl A B i j t

/-- The loops of `EditDistance_NW_cache_aware`, with each body replaced by the recording of
its execution: the sequence of loop-body executions of a call, in order. -/
def cacheAwareSchedule (lengthA lengthB block_size : Nat) : Option (List TabEvent) :=
  (forLoop lengthA 1 (fun i l => some (l ++ [TabEvent.column i])) (lengthA + 1) 1 []).bind
    fun l =>
  (forLoop lengthB 1 (fun j l => some (l ++ [TabEvent.row j])) (lengthB + 1) 1 l).bind
    fun l =>
  tileLoop lengthA block_size (fun I l =>
    tileLoop lengthB block_size (fun J l =>
      let i_end : Int :=
        toInt32 (if sizeAdd I block_size < lengthA then sizeAdd I block_size else lengthA)
      let j_end : Int :=
        toInt32 (if sizeAdd J block_size < lengthB then sizeAdd J block_size else lengthB)
      intLoop i_end (fun i l =>
        intLoop j_end (fun j l => some (l ++ [TabEvent.cell i j])) J l) I l) 1 l) 1 l

/-- The indices of an event are those of a table and of sequences of the lengths `lengthA`
and `lengthB`: the body may read `A[i-1]`, `B[j-1]` and the cells `(i-1, j-1)`, `(i-1, j)`,
`(i, j-1)`, and write the cell `(i, j)`. -/
def TabEvent.InRange (lengthA lengthB : Nat) : TabEvent → Prop
  | TabEvent.column i => 1 ≤ i ∧ i ≤ lengthA
  | TabEvent.row j => 1 ≤ j ∧ j ≤ lengthB
  | TabEvent.cell i j => 1 ≤ i ∧ i ≤ (lengthA : Int) ∧ 1 ≤ j ∧ j ≤ (lengthB : Int)

/-- A piece of program `bt` over the state `σ` and the piece `bl` that records the loop-body
executions instead go together: either both fail (or run out of fuel), or `bl` appends a
fixed list `es` of events and `bt` is the execution of these events in order. -/
def Factors {σ ε : Type} (step : σ → ε → Option σ) (bl : List ε → Option (List ε))
    (bt : σ → Option σ) : Prop :=
  ((∀ l, bl l = none) ∧ ∀ s, bt s = none) ∨
    ∃ es, (∀ l, bl l = some (l ++ es)) ∧ ∀ s, bt s = es.foldlM step s

/-! ## The suffix recurrence as the spec words it -/

/-- From the spec (§4.1): the skip-or-insert cost of one character, 0 for a non-base
character and the indel cost for a base. -/
def skipOrInsertCost (cl : Classifier) (k : Costs) (c : Char) : Int :=
  if cl.isBase c then (k.INSERTION_COST : Int) else 0

/-- From the spec (§4.1): the `align` price of `x` with `y`,
`x unknown ? substitution_unknown_cost : (same(x,y) ? 0 : substitution_cost)`. -/
def alignPrice (cl : Classifier) (k : Costs) (x y : Char) : Int :=
  if cl.isUnknownBase x then (k.SUBSTITUTION_UNKNOWN_COST : Int)
  else if cl.isSameBase x y then 0 else (k.SUBSTITUTION_COST : Int)

/-- From the spec (§4.1): `f(M, j)` along the rest `short[j..N)` once the long sequence is
exhausted. -/
def suffixExhausted (cl : Classifier) (k : Costs) : List Char → Int
  | [] => 0
  | y :: ys => skipOrInsertCost cl k y + suffixExhausted cl k ys

/-- From the spec (§4.1): `f(i, ·)` for the character `x = long[i]`, given `f(i+1, ·)` as
`next`, along the rest of the short sequence. -/
def suffixRow (cl : Classifier) (k : Costs) (x : Char) (next : List Char → Int) :
    List Char → Int
  | [] => skipOrInsertCost cl k x + next []
  | y :: ys =>
    if cl.isBase x = false then next (y :: ys)
    else if cl.isBase y = false then suffixRow cl k x next ys
    else min (min (alignPrice cl k x y + next ys) ((k.INSERTION_COST : Int) + next (y :: ys)))
      ((k.INSERTION_COST : Int) + suffixRow cl k x next ys)

/-- From the spec (§4.1): the plain, unmemoized suffix recurrence on the rest of the long
and the rest of the short sequence. -/
def suffixRecurrence (cl : Classifier) (k : Costs) : List Char → List Char → Int
  | [], ys => suffixExhausted cl k ys
  | x :: xs, ys => suffixRow cl k x (suffixRecurrence cl k xs) ys

/-- From the spec (§4.1): `f(i, j)`, the suffix recurrence at the position `(i, j)` of `X`
and `Y`. -/
def phi (cl : Classifier) (k : Costs) (X : Buf) (M : Nat) (Y : Buf) (N : Nat) (i j : Nat) :
    Int :=
  suffixRecurrence cl k (sfx X M i) (sfx Y N j)

/-! ## The recurrence on lists -/

section Recurrence

variable {α : Type} (c : α → α → Int) (ins : Int)

theorem nwDist_nil_left (ys : List α) : nwDist c ins [] ys = ins * ys.length := rfl

theorem nwDist_nil_right (xs : List α) : nwDist c ins xs [] = ins * xs.length := by
  induction xs with
  | nil => rfl
  | cons x xs ih =>
    show ins + nwDist c ins xs [] = _
    rw [ih]; simp only [List.length_cons]; push_cast; ring

theorem nwDist_cons_cons (x y : α) (xs ys : List α) :
    nwDist c ins (x :: xs) (y :: ys) =
      min (min (c x y + nwDist c ins xs ys) (ins + nwDist c ins xs (y :: ys)))
        (ins + nwDist c ins (x :: xs) ys) := rfl

/-- Induction along the recurrence. -/
theorem nw_induction {P : List α → List α → Prop}
    (h0 : ∀ ys, P [] ys) (h1 : ∀ x xs, P xs [] → P (x :: xs) [])
    (h2 : ∀ x xs y ys, P xs ys → P xs (y :: ys) → P (x :: xs) ys → P (x :: xs) (y :: ys)) :
    ∀ xs ys, P xs ys := by
  intro xs
  induction xs with
  | nil => exact h0
  | cons x xs ih =>
    intro ys
    induction ys with
    | nil => exact h1 x xs (ih [])
    | cons y ys ihy => exact h2 x xs y ys (ih ys) (ih (y :: ys)) ihy

theorem isMinAlignCost_unique {xs ys : List α} {v w : Int}
    (hv : IsMinAlignCost c ins xs ys v) (hw : IsMinAlignCost c ins xs ys w) : v = w := by
  obtain ⟨⟨al, ha, hc⟩, hlow⟩ := hv
  obtain ⟨⟨al', ha', hc'⟩, hlow'⟩ := hw
  have h1 := hlow al' ha'
  have h2 := hlow' al ha
  omega

/-- The recurrence only looks at the pair cost between members of the two sequences. -/
theorem nwDist_congr (c' : α → α → Int) :
    ∀ xs ys : List α, (∀ x ∈ xs, ∀ y ∈ ys, c x y = c' x y) →
      nwDist c ins xs ys = nwDist c' ins xs ys := by
  apply nw_induction
  · intro ys _; rfl
  · intro x xs _ _; rw [nwDist_nil_right, nwDist_nil_right]
  · intro x xs y ys h1 h2 h3 h
    rw [nwDist_cons_cons, nwDist_cons_cons, h x (by simp) y (by simp)]
    rw [h1 (fun a ha b hb => h a (by simp [ha]) b (by simp [hb])),
      h2 (fun a ha b hb => h a (by simp [ha]) b hb),
      h3 (fun a ha b hb => h a ha b (by simp [hb]))]

theorem nwDist_nonneg (hc : ∀ x y, 0 ≤ c x y) (hins : 0 ≤ ins) :
    ∀ xs ys : List α, 0 ≤ nwDist c ins xs ys := by
  apply nw_induction
  · intro ys; rw [nwDist_nil_left]; positivity
  · intro x xs _; rw [nwDist_nil_right]; positivity
  · intro x xs y ys h1 h2 h3
    rw [nwDist_cons_cons]
    have := hc x y
    exact le_min (le_min (by linarith) (by linarith)) (by linarith)

end Recurrence

/-! ## Tables and loops -/

theorem Table.Holds.get {t : Table} {rows cols : Nat} {V : Nat → Nat → Int}
    {R : Nat → Nat → Prop} (h : t.Holds rows cols V R) {a b : Nat} (hab : R a b) :
    t.get a b = some (V a b) := by
  obtain ⟨hr, hc, hcell⟩ := h
  obtain ⟨h1, h2, h3⟩ := hcell a b hab
  simp [Table.get, hr, hc, h1, h2, h3]

theorem Table.Holds.mono {t : Table} {rows cols : Nat} {V : Nat → Nat → Int}
    {R R' : Nat → Nat → Prop} (h : t.Holds rows cols V R) (sub : ∀ a b, R' a b → R a b) :
    t.Holds rows cols V R' :=
  ⟨h.1, h.2.1, fun a b hab => h.2.2 a b (sub a b hab)⟩

theorem Table.Holds.set {t : Table} {rows cols : Nat} {V : Nat → Nat → Int}
    {R : Nat → Nat → Prop} (h : t.Holds rows cols V R) (R' : Nat → Nat → Prop) {i j : Nat}
    {v : Int} (hi : i < rows) (hj : j < cols) (hv : v = V i j)
    (sub : ∀ a b, R' a b → R a b ∨ (a = i ∧ b = j)) :
    ∃ t', t.set i j v = some t' ∧ t'.Holds rows cols V R' := by
  obtain ⟨hr, hc, hcell⟩ := h
  refine ⟨⟨t.rows, t.cols, fun a b => if a = i ∧ b = j then some v else t.cell a b⟩, ?_,
    hr, hc, ?_⟩
  · simp [Table.set, hr, hc, hi, hj]
  · intro a b hab
    rcases sub a b hab with h' | ⟨rfl, rfl⟩
    · obtain ⟨h1, h2, h3⟩ := hcell a b h'
      refine ⟨h1, h2, ?_⟩
      show (if a = i ∧ b = j then some v else t.cell a b) = _
      split
      · next hij => obtain ⟨rfl, rfl⟩ := hij; rw [hv]
      · exact h3
    · exact ⟨hi, hj, by simp [hv]⟩

/-- The invariant rule of `forLoop`: with a positive step and enough fuel the loop ends, in
a state that satisfies the invariant at an index beyond `hi`. -/
theorem forLoop_spec {σ : Type} (hi step : Nat) (body : Nat → σ → Option σ)
    (Inv : Nat → σ → Prop) (hstep : 1 ≤ step)
    (hbody : ∀ k s, k ≤ hi → Inv k s → ∃ s', body k s = some s' ∧ Inv (k + step) s') :
    ∀ fuel k s, 1 ≤ fuel → hi + 2 ≤ k + fuel → Inv k s →
      ∃ k' s', forLoop hi step body fuel k s = some s' ∧ hi < k' ∧ Inv k' s' := by
  intro fuel
  induction fuel with
  | zero => intro k s h; omega
  | succ fuel ih =>
    intro k s _ hf hinv
    by_cases hk : k ≤ hi
    · obtain ⟨s', hs', hinv'⟩ := hbody k s hk hinv
      obtain ⟨k', s'', h1, h2, h3⟩ := ih (k + step) s' (by omega) (by omega) hinv'
      exact ⟨k', s'', by simp [forLoop, hk, hs', h1], h2, h3⟩
    · exact ⟨k, s, by simp [forLoop, hk], by omega, hinv⟩

/-- The invariant rule of `forGen`: when each iteration keeps the invariant and lowers the
measure `μ`, a fuel above the measure is enough for the loop to end, in a state that
satisfies the invariant at a counter that fails the test. -/
theorem forGen_spec {ι σ : Type} (test : ι → Bool) (next : ι → ι)
    (body : ι → σ → Option σ) (Inv : ι → σ → Prop) (μ : ι → Nat)
    (hbody : ∀ k s, test k = true → Inv k s →
      ∃ s', body k s = some s' ∧ Inv (next k) s' ∧ μ (next k) < μ k) :
    ∀ fuel k s, μ k < fuel → Inv k s →
      ∃ k' s', forGen test next body fuel k s = some s' ∧ test k' = false ∧ Inv k' s' := by
  intro fuel
  induction fuel with
  | zero => intro k s h; omega
  | succ fuel ih =>
    intro k s hf hinv
    by_cases hk : test k = true
    · obtain ⟨s', hs', hinv', hμ⟩ := hbody k s hk hinv
      obtain ⟨k', s'', h1, h2, h3⟩ := ih (next k) s' (by omega) hinv'
      exact ⟨k', s'', by simp [forGen, hk, hs', h1], h2, h3⟩
    · exact ⟨k, s, by simp [forGen, hk], by simpa using hk, hinv⟩

/-- While nothing wraps, `K += step` on an `int` counter is the addition. -/
theorem toInt32_sizeAdd {K : Int} {hi step : Nat} (h1 : 0 ≤ K) (h2 : K ≤ hi)
    (h : hi + step ≤ INT_MAX) : toInt32 (sizeAdd K step) = K + step := by
  unfold INT_MAX at h
  unfold toInt32 sizeAdd toSizeT
  split <;> omega

/-- While nothing wraps, the end of a tile is `min (K + step) hi`. -/
theorem tile_end {K : Int} {hi step : Nat} (h1 : 0 ≤ K) (h2 : K ≤ hi)
    (h : hi + step ≤ INT_MAX) :
    toInt32 (if sizeAdd K step < hi then sizeAdd K step else hi) = min (K + step) hi := by
  unfold INT_MAX at h
  unfold toInt32 sizeAdd toSizeT
  split <;> split <;> omega

/-- An `int` counter from 0 up to `INT_MAX` passes the tile loop test when it is at most
`hi`. -/
theorem toSizeT_le {K : Int} {hi : Nat} (h1 : 0 ≤ K) (h2 : K ≤ INT_MAX) :
    toSizeT K ≤ hi ↔ K ≤ hi := by
  unfold INT_MAX at h2
  unfold toSizeT
  omega

/-- With indices from 1 on, the `int`-indexed loop body is the loop body. -/
theorem cellStepInt_eq (cl : Classifier) (A B : Buf) {i j : Int} (hi : 1 ≤ i) (hj : 1 ≤ j)
    (t : Table) : cellStepInt cl A B i j t = cellStep cl A B i.toNat j.toNat t := by
  have e1 : (i - 1).toNat = i.toNat - 1 := by omega
  have e2 : (j - 1).toNat = j.toNat - 1 := by omega
  have c1 : 0 ≤ i - 1 ∧ 0 ≤ j - 1 := by omega
  have c2 : 0 ≤ i - 1 ∧ 0 ≤ j := by omega
  have c3 : 0 ≤ i ∧ 0 ≤ j - 1 := by omega
  have c4 : 0 ≤ i ∧ 0 ≤ j := by omega
  simp only [cellStepInt, cellStep, Table.getInt, Table.setInt, e1, e2, if_pos c1, if_pos c2,
    if_pos c3, if_pos c4]

/-! ## The values of the tabulating engines -/

theorem pfx_zero (A : Buf) : pfx A 0 = [] := rfl

theorem pfx_succ (A : Buf) (n : Nat) : pfx A (n + 1) = pfx A n ++ [A n] := by
  simp [pfx, List.range_succ]

theorem length_pfx (A : Buf) (n : Nat) : (pfx A n).length = n := by simp [pfx]

theorem pfx_ofList (l : List Char) : pfx (Buf.ofList l) l.length = l := by
  apply List.ext_getElem
  · simp [pfx]
  · intro i h1 h2
    simp [pfx, Buf.ofList, List.getElem?_eq_getElem h2]

theorem bases_reverse_pfx_succ (cl : Classifier) (A : Buf) (n : Nat) :
    (bases cl (pfx A (n + 1))).reverse =
      if cl.isBase (A n) then A n :: (bases cl (pfx A n)).reverse
      else (bases cl (pfx A n)).reverse := by
  rw [pfx_succ]
  by_cases h : cl.isBase (A n) <;> simp [bases, List.filter_append, h]

theorem kronecker_eq (cl : Classifier) (A B : Buf) (i j : Nat) :
    kronecker cl A i B j = pairCost cl (A i) (B j) := rfl

theorem tabValue_zero_zero (cl : Classifier) (A B : Buf) : tabValue cl A B 0 0 = 0 := by
  simp [tabValue, pfx_zero, bases, nwDist_nil_left]

theorem tabValue_succ_zero (cl : Classifier) (A B : Buf) (i : Nat) :
    tabValue cl A B (i + 1) 0 = (if cl.isBase (A i) then 2 else 0) + tabValue cl A B i 0 := by
  unfold tabValue
  rw [bases_reverse_pfx_succ]
  by_cases h : cl.isBase (A i)
  · simp only [h, if_true, nwDist_nil_right, pfx_zero, bases, List.filter_nil,
      List.reverse_nil, List.length_cons]
    push_cast; ring
  · simp [h]

theorem tabValue_zero_succ (cl : Classifier) (A B : Buf) (j : Nat) :
    tabValue cl A B 0 (j + 1) = (if cl.isBase (B j) then 2 else 0) + tabValue cl A B 0 j := by
  unfold tabValue
  rw [bases_reverse_pfx_succ]
  by_cases h : cl.isBase (B j)
  · simp only [h, if_true, nwDist_nil_left, pfx_zero, bases, List.filter_nil,
      List.reverse_nil, List.length_cons]
    push_cast; ring
  · simp [h]

theorem tabValue_succ_succ (cl : Classifier) (A B : Buf) (i j : Nat) :
    tabValue cl A B (i + 1) (j + 1) =
      if cl.isBase (A i) = false then tabValue cl A B i (j + 1)
      else if cl.isBase (B j) = false then tabValue cl A B (i + 1) j
      else min (min (tabValue cl A B i j + pairCost cl (A i) (B j))
        (2 + tabValue cl A B i (j + 1))) (2 + tabValue cl A B (i + 1) j) := by
  unfold tabValue
  rw [bases_reverse_pfx_succ cl A i, bases_reverse_pfx_succ cl B j]
  by_cases hA : cl.isBase (A i)
  · by_cases hB : cl.isBase (B j)
    · simp only [hA, hB, if_true, nwDist_cons_cons]
      simp [add_comm]
    · simp [hA, hB]
  · simp [hA]

/-- The innermost loop body assigns cell `(i, j)` its value, once its three neighbours hold
theirs. -/
theorem cellStep_spec (cl : Classifier) (A B : Buf) {la lb : Nat} {t : Table}
    {R : Nat → Nat → Prop} {i j : Nat}
    (h : t.Holds (la + 1) (lb + 1) (tabValue cl A B) R) (R' : Nat → Nat → Prop)
    (hi1 : 1 ≤ i) (hi2 : i ≤ la) (hj1 : 1 ≤ j) (hj2 : j ≤ lb)
    (hd : R (i - 1) (j - 1)) (hu : R (i - 1) j) (hl : R i (j - 1))
    (sub : ∀ a b, R' a b → R a b ∨ (a = i ∧ b = j)) :
    ∃ t', cellStep cl A B i j t = some t' ∧ t'.Holds (la + 1) (lb + 1) (tabValue cl A B) R' := by
  obtain ⟨i, rfl⟩ : ∃ i', i = i' + 1 := ⟨i - 1, by omega⟩
  obtain ⟨j, rfl⟩ : ∃ j', j = j' + 1 := ⟨j - 1, by omega⟩
  simp only [Nat.add_sub_cancel] at hd hu hl
  simp only [cellStep, Nat.add_sub_cancel, h.get hd, h.get hu, h.get hl, Option.some_bind,
    kronecker_eq]
  by_cases hA : cl.isBase (A i)
  · by_cases hB : cl.isBase (B j)
    · simp only [hA, hB, Bool.not_true, Bool.false_eq_true, if_false, if_true]
      apply h.set R' (by omega) (by omega) _ sub
      rw [tabValue_succ_succ]
      simp only [hA, hB, Bool.true_eq_false, if_false]
      rw [min_def, min_def]
      split_ifs <;> omega
    · simp only [hA, hB, Bool.not_true, Bool.not_false, Bool.false_eq_true, if_false, if_true]
      apply h.set R' (by omega) (by omega) _ sub
      rw [tabValue_succ_succ]
      simp [hA, hB]
  · simp only [hA, Bool.not_false, if_true]
    apply h.set R' (by omega) (by omega) _ sub
    rw [tabValue_succ_succ]
    simp [hA]

theorem alloc_holds (rows cols : Nat) (V : Nat → Nat → Int) :
    (Table.alloc rows cols).Holds rows cols V (fun _ _ => False) :=
  ⟨rfl, rfl, fun _ _ h => h.elim⟩

/-- The prologue fills row 0 and column 0. -/
theorem initBorders_spec (cl : Classifier) (A : Buf) (la : Nat) (B : Buf) (lb : Nat) :
    ∃ t, initBorders cl A la B lb = some t ∧
      t.Holds (la + 1) (lb + 1) (tabValue cl A B)
        (fun a b => a ≤ la ∧ b ≤ lb ∧ (a = 0 ∨ b = 0)) := by
  obtain ⟨t0, e0, h0⟩ := (alloc_holds (la + 1) (lb + 1) (tabValue cl A B)).set
    (fun a b => a = 0 ∧ b = 0) (i := 0) (j := 0) (v := 0)
    (by omega) (by omega) (tabValue_zero_zero cl A B).symm (fun a b h => Or.inr h)
  obtain ⟨k1, t1, e1, hk1, -, h1⟩ := forLoop_spec la 1
    (fun i t => (t.get (i - 1) 0).bind fun p =>
      t.set i 0 ((if cl.isBase (A (i - 1)) then 2 else 0) + p))
    (fun i t => 1 ≤ i ∧ t.Holds (la + 1) (lb + 1) (tabValue cl A B)
      (fun a b => b = 0 ∧ a < i ∧ a ≤ la)) (le_refl 1)
    (by
      rintro i t hi ⟨hi1, ht⟩
      obtain ⟨i, rfl⟩ : ∃ i', i = i' + 1 := ⟨i - 1, by omega⟩
      have hg := ht.get (a := i) (b := 0) ⟨rfl, by omega, by omega⟩
      simp only [Nat.add_sub_cancel, hg, Option.some_bind]
      obtain ⟨t', e', h'⟩ := ht.set (fun a b => b = 0 ∧ a < i + 1 + 1 ∧ a ≤ la)
        (i := i + 1) (j := 0)
        (v := (if cl.isBase (A i) then 2 else 0) + tabValue cl A B i 0)
        (by omega) (by omega) (tabValue_succ_zero cl A B i).symm
        (fun a b h => by omega)
      exact ⟨t', e', by omega, h'⟩)
    (la + 1) 1 t0 (by omega) (by omega) ⟨le_refl 1, h0.mono (fun a b h => by omega)⟩
  obtain ⟨k2, t2, e2, hk2, -, h2⟩ := forLoop_spec lb 1
    (fun j t => (t.get 0 (j - 1)).bind fun p =>
      t.set 0 j ((if cl.isBase (B (j - 1)) then 2 else 0) + p))
    (fun j t => 1 ≤ j ∧ t.Holds (la + 1) (lb + 1) (tabValue cl A B)
      (fun a b => (b = 0 ∧ a ≤ la) ∨ (a = 0 ∧ b < j ∧ b ≤ lb))) (le_refl 1)
    (by
      rintro j t hj ⟨hj1, ht⟩
      obtain ⟨j, rfl⟩ : ∃ j', j = j' + 1 := ⟨j - 1, by omega⟩
      have hg := ht.get (a := 0) (b := j) (by omega)
      simp only [Nat.add_sub_cancel, hg, Option.some_bind]
      obtain ⟨t', e', h'⟩ := ht.set
        (fun a b => (b = 0 ∧ a ≤ la) ∨ (a = 0 ∧ b < j + 1 + 1 ∧ b ≤ lb))
        (i := 0) (j := j + 1)
        (v := (if cl.isBase (B j) then 2 else 0) + tabValue cl A B 0 j)
        (by omega) (by omega) (tabValue_zero_succ cl A B j).symm
        (fun a b h => by omega)
      exact ⟨t', e', by omega, h'⟩)
    (lb + 1) 1 t1 (by omega) (by omega) ⟨le_refl 1, h1.mono (fun a b h => by omega)⟩
  refine ⟨t2, ?_, h2.mono (fun a b h => by omega)⟩
  simp only [initBorders, e0, e1, e2, Option.some_bind]

/-- The row-major sweep of the iterative engine assigns every cell its value. -/
theorem iterativeTable_spec (cl : Classifier) (A : Buf) (la : Nat) (B : Buf) (lb : Nat) :
    ∃ t, iterativeTable cl A la B lb = some t ∧
      t.Holds (la + 1) (lb + 1) (tabValue cl A B) (fun a b => a ≤ la ∧ b ≤ lb) := by
  obtain ⟨t0, e0, h0⟩ := initBorders_spec cl A la B lb
  obtain ⟨k1, t1, e1, hk1, -, h1⟩ := forLoop_spec la 1
    (fun i t => forLoop lb 1 (fun j t => cellStep cl A B i j t) (lb + 1) 1 t)
    (fun i t => 1 ≤ i ∧ t.Holds (la + 1) (lb + 1) (tabValue cl A B)
      (fun a b => a ≤ la ∧ b ≤ lb ∧ (a < i ∨ b = 0))) (le_refl 1)
    (by
      rintro i t hi ⟨hi1, ht⟩
      obtain ⟨k2, t2, e2, hk2, -, h2⟩ := forLoop_spec lb 1
        (fun j t => cellStep cl A B i j t)
        (fun j t => 1 ≤ j ∧ t.Holds (la + 1) (lb + 1) (tabValue cl A B)
          (fun a b => a ≤ la ∧ b ≤ lb ∧ (a < i ∨ b = 0 ∨ (a = i ∧ b < j)))) (le_refl 1)
        (by
          rintro j t hj ⟨hj1, ht⟩
          obtain ⟨t', e', h'⟩ := cellStep_spec cl A B ht
            (fun a b => a ≤ la ∧ b ≤ lb ∧ (a < i ∨ b = 0 ∨ (a = i ∧ b < j + 1)))
            hi1 hi hj1 hj
            (by omega) (by omega) (by omega) (fun a b h => by omega)
          exact ⟨t', e', by omega, h'⟩)
        (lb + 1) 1 t (by omega) (by omega) ⟨le_refl 1, ht.mono (fun a b h => by omega)⟩
      exact ⟨t2, e2, by omega, h2.mono (fun a b h => by omega)⟩)
    (la + 1) 1 t0 (by omega) (by omega) ⟨le_refl 1, h0.mono (fun a b h => by omega)⟩
  refine ⟨t1, ?_, h1.mono (fun a b h => by omega)⟩
  simp only [iterativeTable, e0, e1, Option.some_bind]

/-- One tile of the cache-aware engine, started with everything above and to the left of it
assigned, assigns its own cells, as long as the tile counters do not wrap. -/
theorem tile_spec (cl : Classifier) (A : Buf) (la : Nat) (B : Buf) (lb : Nat)
    (bs : Nat) (I J : Int) (hI1 : 1 ≤ I) (hI2 : I ≤ la) (hJ1 : 1 ≤ J) (hJ2 : J ≤ lb)
    (hA : la + bs ≤ INT_MAX) (hB : lb + bs ≤ INT_MAX) (t : Table)
    (ht : t.Holds (la + 1) (lb + 1) (tabValue cl A B)
      (fun a b => a ≤ la ∧ b ≤ lb ∧
        ((a : Int) < I ∨ b = 0 ∨ ((a : Int) ≤ I + bs ∧ (b : Int) < J)))) :
    ∃ t', intLoop (toInt32 (if sizeAdd I bs < la then sizeAdd I bs else la)) (fun i t =>
        intLoop (toInt32 (if sizeAdd J bs < lb then sizeAdd J bs else lb))
          (fun j t => cellStepInt cl A B i j t) J t) I t = some t' ∧
      t'.Holds (la + 1) (lb + 1) (tabValue cl A B)
        (fun a b => a ≤ la ∧ b ≤ lb ∧
          ((a : Int) < I ∨ b = 0 ∨ ((a : Int) ≤ I + bs ∧ (b : Int) < J + bs))) := by
  rw [tile_end (by omega) hI2 hA, tile_end (by omega) hJ2 hB]
  obtain ⟨k3, t3, e3, hk3, -, h3⟩ := forGen_spec
    (fun i => decide (i ≤ min (I + bs) (la : Int))) (fun i => i + 1)
    (fun i t => intLoop (min (J + bs) (lb : Int)) (fun j t => cellStepInt cl A B i j t) J t)
    (fun i t => I ≤ i ∧ t.Holds (la + 1) (lb + 1) (tabValue cl A B)
      (fun a b => a ≤ la ∧ b ≤ lb ∧
        ((a : Int) < I ∨ b = 0 ∨ ((a : Int) ≤ I + bs ∧ (b : Int) < J) ∨
          ((a : Int) < i ∧ (b : Int) ≤ J + bs))))
    (fun i => (min (I + bs) (la : Int) + 1 - i).toNat)
    (by
      rintro i t hi ⟨hi1, ht⟩
      beta_reduce at hi ⊢
      have hi' : i ≤ min (I + bs) (la : Int) := of_decide_eq_true hi
      obtain ⟨k4, t4, e4, hk4, -, h4⟩ := forGen_spec
        (fun j => decide (j ≤ min (J + bs) (lb : Int))) (fun j => j + 1)
        (fun j t => cellStepInt cl A B i j t)
        (fun j t => J ≤ j ∧ t.Holds (la + 1) (lb + 1) (tabValue cl A B)
          (fun a b => a ≤ la ∧ b ≤ lb ∧
            ((a : Int) < I ∨ b = 0 ∨ ((a : Int) ≤ I + bs ∧ (b : Int) < J) ∨
              ((a : Int) < i ∧ (b : Int) ≤ J + bs) ∨ ((a : Int) = i ∧ (b : Int) < j))))
        (fun j => (min (J + bs) (lb : Int) + 1 - j).toNat)
        (by
          rintro j t hj ⟨hj1, ht⟩
          beta_reduce at hj ⊢
          have hj' : j ≤ min (J + bs) (lb : Int) := of_decide_eq_true hj
          rw [cellStepInt_eq cl A B (by omega) (by omega)]
          obtain ⟨t', e', h'⟩ := cellStep_spec cl A B ht
            (fun a b => a ≤ la ∧ b ≤ lb ∧
              ((a : Int) < I ∨ b = 0 ∨ ((a : Int) ≤ I + bs ∧ (b : Int) < J) ∨
                ((a : Int) < i ∧ (b : Int) ≤ J + bs) ∨ ((a : Int) = i ∧ (b : Int) < j + 1)))
            (i := i.toNat) (j := j.toNat)
            (by omega) (by omega) (by omega) (by omega)
            (by omega) (by omega) (by omega) (fun a b h => by omega)
          exact ⟨t', e', ⟨by omega, h'⟩, by omega⟩)
        ((min (J + bs) (lb : Int) + 1 - J).toNat + 1) J t (by beta_reduce; omega)
        ⟨le_refl J, ht.mono (fun a b h => by omega)⟩
      have hk4' : ¬ k4 ≤ min (J + bs) (lb : Int) := of_decide_eq_false hk4
      exact ⟨t4, e4, ⟨by omega, h4.mono (fun a b h => by omega)⟩, by omega⟩)
    ((min (I + bs) (la : Int) + 1 - I).toNat + 1) I t (by beta_reduce; omega)
    ⟨le_refl I, ht.mono (fun a b h => by omega)⟩
  have hk3' : ¬ k3 ≤ min (I + bs) (la : Int) := of_decide_eq_false hk3
  exact ⟨t3, e3, h3.mono (fun a b h => by omega)⟩

/-- The tile sweep of the cache-aware engine assigns every cell its value, for every
positive block size with which the tile counters do not wrap. -/
theorem cacheAwareTable_spec (cl : Classifier) (A : Buf) (la : Nat) (B : Buf) (lb : Nat)
    (bs : Nat) (hbs : 1 ≤ bs) (hA : la + bs ≤ INT_MAX) (hB : lb + bs ≤ INT_MAX) :
    ∃ t, cacheAwareTable cl A la B lb bs = some t ∧
      t.Holds (la + 1) (lb + 1) (tabValue cl A B) (fun a b => a ≤ la ∧ b ≤ lb) := by
  have hA' := hA
  have hB' := hB
  unfold INT_MAX at hA' hB'
  obtain ⟨t0, e0, h0⟩ := initBorders_spec cl A la B lb
  obtain ⟨k1, t1, e1, hk1, ⟨hk1a, hk1b, h1⟩⟩ := forGen_spec
    (fun K => decide (toSizeT K ≤ la)) (fun K => toInt32 (sizeAdd K bs))
    (fun I t => tileLoop lb bs (fun J t =>
      intLoop (toInt32 (if sizeAdd I bs < la then sizeAdd I bs else la)) (fun i t =>
        intLoop (toInt32 (if sizeAdd J bs < lb then sizeAdd J bs else lb))
          (fun j t => cellStepInt cl A B i j t) J t) I t) 1 t)
    (fun I t => 1 ≤ I ∧ I ≤ (la : Int) + bs ∧
      t.Holds (la + 1) (lb + 1) (tabValue cl A B)
        (fun a b => a ≤ la ∧ b ≤ lb ∧ ((a : Int) < I ∨ b = 0)))
    (fun I => ((la : Int) + 1 - I).toNat)
    (by
      rintro I t hI ⟨hI1, hI3, ht⟩
      beta_reduce at hI ⊢
      have hI2 : I ≤ la :=
        (toSizeT_le (by omega) (by unfold INT_MAX; omega)).1 (of_decide_eq_true hI)
      rw [toInt32_sizeAdd (by omega) hI2 hA]
      obtain ⟨k2, t2, e2, hk2, ⟨hk2a, hk2b, h2⟩⟩ := forGen_spec
        (fun K => decide (toSizeT K ≤ lb)) (fun K => toInt32 (sizeAdd K bs))
        (fun J t =>
          intLoop (toInt32 (if sizeAdd I bs < la then sizeAdd I bs else la)) (fun i t =>
            intLoop (toInt32 (if sizeAdd J bs < lb then sizeAdd J bs else lb))
              (fun j t => cellStepInt cl A B i j t) J t) I t)
        (fun J t => 1 ≤ J ∧ J ≤ (lb : Int) + bs ∧
          t.Holds (la + 1) (lb + 1) (tabValue cl A B)
            (fun a b => a ≤ la ∧ b ≤ lb ∧
              ((a : Int) < I ∨ b = 0 ∨ ((a : Int) ≤ I + bs ∧ (b : Int) < J))))
        (fun J => ((lb : Int) + 1 - J).toNat)
        (by
          rintro J t hJ ⟨hJ1, hJ3, ht⟩
          beta_reduce at hJ ⊢
          have hJ2 : J ≤ lb :=
            (toSizeT_le (by omega) (by unfold INT_MAX; omega)).1 (of_decide_eq_true hJ)
          rw [toInt32_sizeAdd (by omega) hJ2 hB]
          obtain ⟨t', e', h'⟩ := tile_spec cl A la B lb bs I J hI1 hI2 hJ1 hJ2 hA hB t ht
          exact ⟨t', e', ⟨by omega, by omega, h'⟩, by omega⟩)
        (lb + 2) 1 t (by beta_reduce; omega)
        ⟨le_refl 1, by omega, ht.mono (fun a b h => by omega)⟩
      have hk2' : ¬ k2 ≤ (lb : Int) := fun hle =>
        of_decide_eq_false hk2 ((toSizeT_le (by omega) (by unfold INT_MAX; omega)).2 hle)
      exact ⟨t2, e2, ⟨by omega, by omega, h2.mono (fun a b h => by omega)⟩, by omega⟩)
    (la + 2) 1 t0 (by beta_reduce; omega)
    ⟨le_refl 1, by omega, h0.mono (fun a b h => by omega)⟩
  have hk1' : ¬ k1 ≤ (la : Int) := fun hle =>
    of_decide_eq_false hk1 ((toSizeT_le (by omega) (by unfold INT_MAX; omega)).2 hle)
  refine ⟨t1, ?_, h1.mono (fun a b h => by omega)⟩
  simp only [cacheAwareTable, e0, Option.some_bind]
  exact e1

theorem iterative_eq (cl : Classifier) (A : Buf) (la : Nat) (B : Buf) (lb : Nat) :
    EditDistance_NW_iterative cl A la B lb = some (tabValue cl A B la lb) := by
  obtain ⟨t, e, h⟩ := iterativeTable_spec cl A la B lb
  simp only [EditDistance_NW_iterative, e, Option.some_bind]
  exact h.get ⟨le_refl _, le_refl _⟩

theorem cache_aware_eq (cl : Classifier) (A : Buf) (la : Nat) (B : Buf) (lb : Nat)
    (bs : Nat) (hbs : 1 ≤ bs) (hA : la + bs ≤ INT_MAX) (hB : lb + bs ≤ INT_MAX) :
    EditDistance_NW_cache_aware cl A la B lb bs = some (tabValue cl A B la lb) := by
  obtain ⟨t, e, h⟩ := cacheAwareTable_spec cl A la B lb bs hbs hA hB
  simp only [EditDistance_NW_cache_aware, e, Option.some_bind]
  exact h.get ⟨le_refl _, le_refl _⟩

/-! ## The values of the recursive engine -/

theorem sfx_self (X : Buf) (M : Nat) : sfx X M M = [] := by simp [sfx]

theorem sfx_lt (X : Buf) {M i : Nat} (h : i < M) : sfx X M i = X i :: sfx X M (i + 1) := by
  have e : M - i = (M - (i + 1)) + 1 := by omega
  simp only [sfx]
  rw [e, List.range'_succ]
  simp

theorem sfx_zero (X : Buf) (M : Nat) : sfx X M 0 = pfx X M := by
  simp [sfx, pfx, List.range_eq_range']

theorem bases_cons (cl : Classifier) (x : Char) (xs : List Char) :
    bases cl (x :: xs) = if cl.isBase x then x :: bases cl xs else bases cl xs := by
  by_cases h : cl.isBase x <;> simp [bases, h]

theorem recValue_end (cl : Classifier) (k : Costs) (X : Buf) (M : Nat) (Y : Buf) (N : Nat) :
    recValue cl k X M Y N M N = 0 := by
  simp [recValue, sfx_self, bases, nwDist_nil_left]

theorem recValue_endX (cl : Classifier) (k : Costs) (X : Buf) (M : Nat) (Y : Buf) {N j : Nat}
    (h : j < N) : recValue cl k X M Y N M j =
      (if cl.isBase (Y j) then (k.INSERTION_COST : Int) else 0) + recValue cl k X M Y N M (j + 1) := by
  unfold recValue
  rw [sfx_lt Y h, bases_cons, sfx_self]
  by_cases hb : cl.isBase (Y j)
  · simp only [hb, if_true, bases, List.filter_nil, nwDist_nil_left, List.length_cons]
    push_cast; ring
  · simp [hb]

theorem recValue_endY (cl : Classifier) (k : Costs) (X : Buf) {M i : Nat} (Y : Buf) (N : Nat)
    (h : i < M) : recValue cl k X M Y N i N =
      (if cl.isBase (X i) then (k.INSERTION_COST : Int) else 0) + recValue cl k X M Y N (i + 1) N := by
  unfold recValue
  rw [sfx_lt X h, bases_cons, sfx_self]
  by_cases hb : cl.isBase (X i)
  · simp only [hb, if_true, bases, List.filter_nil, nwDist_nil_right, List.length_cons]
    push_cast; ring
  · simp [hb]

theorem recValue_skipX (cl : Classifier) (k : Costs) (X : Buf) {M i : Nat} (Y : Buf) (N j : Nat)
    (h : i < M) (hb : cl.isBase (X i) = false) :
    recValue cl k X M Y N i j = recValue cl k X M Y N (i + 1) j := by
  unfold recValue
  rw [sfx_lt X h, bases_cons]
  simp [hb]

theorem recValue_skipY (cl : Classifier) (k : Costs) (X : Buf) (M i : Nat) (Y : Buf) {N j : Nat}
    (h : j < N) (hb : cl.isBase (Y j) = false) :
    recValue cl k X M Y N i j = recValue cl k X M Y N i (j + 1) := by
  unfold recValue
  rw [sfx_lt Y h, bases_cons]
  simp [hb]

theorem recValue_inner (cl : Classifier) (k : Costs) (X : Buf) {M i : Nat} (Y : Buf) {N j : Nat}
    (hi : i < M) (hj : j < N) (hX : cl.isBase (X i) = true) (hY : cl.isBase (Y j) = true) :
    recValue cl k X M Y N i j =
      min (min (recPairCost cl k (X i) (Y j) + recValue cl k X M Y N (i + 1) (j + 1))
        ((k.INSERTION_COST : Int) + recValue cl k X M Y N (i + 1) j))
        ((k.INSERTION_COST : Int) + recValue cl k X M Y N i (j + 1)) := by
  unfold recValue
  rw [sfx_lt X hi, sfx_lt Y hj, bases_cons, bases_cons]
  simp only [hX, hY, if_true, nwDist_cons_cons]

theorem MemoOK.lookup {cl : Classifier} {k : Costs} {X : Buf} {M : Nat} {Y : Buf} {N : Nat}
    {t : Table} (h : MemoOK cl k X M Y N t) {a b : Nat} (ha : a ≤ M) (hb : b ≤ N) :
    ∃ m, t.get a b = some m ∧ (m = NOT_YET_COMPUTED ∨ m = recValue cl k X M Y N a b) := by
  obtain ⟨hr, hc, hcell⟩ := h
  have h1 : a < t.rows := by omega
  have h2 : b < t.cols := by omega
  rcases hcell a b ha hb with h3 | h3
  · exact ⟨_, by simp [Table.get, h1, h2, h3], Or.inl rfl⟩
  · exact ⟨_, by simp [Table.get, h1, h2, h3], Or.inr rfl⟩

/-- Storing `phi(i, j)` in its cell and reading it back. -/
theorem MemoOK.store {cl : Classifier} {k : Costs} {X : Buf} {M : Nat} {Y : Buf} {N : Nat}
    {t : Table} (h : MemoOK cl k X M Y N t) {i j : Nat} (hi : i ≤ M) (hj : j ≤ N) {v : Int}
    (hv : v = recValue cl k X M Y N i j) :
    ∃ t', ((t.set i j v).bind fun memo => (memo.get i j).bind fun w =>
        some (w, (⟨X, Y, M, N, memo⟩ : NW_MemoContext))) =
          some (recValue cl k X M Y N i j, ⟨X, Y, M, N, t'⟩) ∧ MemoOK cl k X M Y N t' := by
  obtain ⟨hr, hc, hcell⟩ := h
  have h1 : i < t.rows := by omega
  have h2 : j < t.cols := by omega
  refine ⟨⟨t.rows, t.cols, fun a b => if a = i ∧ b = j then some v else t.cell a b⟩, ?_,
    hr, hc, ?_⟩
  · simp [Table.set, Table.get, h1, h2, hv]
  · intro a b ha hb
    show (if a = i ∧ b = j then some v else t.cell a b) = _ ∨
      (if a = i ∧ b = j then some v else t.cell a b) = _
    split
    · next hij => obtain ⟨rfl, rfl⟩ := hij; exact Or.inr (by rw [hv])
    · exact hcell a b ha hb

/-- The memoized recursion returns `phi(i, j)` and keeps the memo table sound; a fuel above
`(M - i) + (N - j)` is enough. -/
theorem recMemo_spec (cl : Classifier) (k : Costs) (X : Buf) (M : Nat) (Y : Buf) (N : Nat) :
    ∀ fuel i j t, i ≤ M → j ≤ N → (M - i) + (N - j) < fuel → MemoOK cl k X M Y N t →
      ∃ t', EditDistance_NW_RecMemo cl k fuel ⟨X, Y, M, N, t⟩ i j =
          some (recValue cl k X M Y N i j, ⟨X, Y, M, N, t'⟩) ∧ MemoOK cl k X M Y N t' := by
  intro fuel
  induction fuel with
  | zero => intro i j t _ _ h; omega
  | succ fuel ih =>
    intro i j t hi hj hf ht
    obtain ⟨m, hm, hm'⟩ := ht.lookup hi hj
    simp only [EditDistance_NW_RecMemo, hm, Option.some_bind]
    by_cases hN : m = NOT_YET_COMPUTED
    · simp only [hN, if_true]
      by_cases hiM : i = M
      · by_cases hjN : j = N
        · subst hiM; subst hjN
          simp only [if_true, Option.some_bind]
          exact ht.store hi hj (recValue_end cl k X i Y j).symm
        · obtain ⟨t1, e1, h1⟩ := ih i (j + 1) t hi (by omega) (by omega) ht
          simp only [hiM, hjN, if_true, if_false, Option.some_bind] at e1 ⊢
          simp only [e1, Option.some_bind]
          exact h1.store (by omega) hj (recValue_endX cl k X M Y (by omega)).symm
      · by_cases hjN : j = N
        · obtain ⟨t1, e1, h1⟩ := ih (i + 1) j t (by omega) hj (by omega) ht
          simp only [hiM, hjN, if_true, if_false, Option.some_bind] at e1 ⊢
          simp only [e1, Option.some_bind]
          exact h1.store hi (le_refl _) (recValue_endY cl k X Y N (by omega)).symm
        · simp only [hiM, hjN, if_false]
          by_cases hX : cl.isBase (X i)
          · by_cases hY : cl.isBase (Y j)
            · obtain ⟨t1, e1, h1⟩ := ih (i + 1) (j + 1) t (by omega) (by omega) (by omega) ht
              obtain ⟨t2, e2, h2⟩ := ih (i + 1) j t1 (by omega) (by omega) (by omega) h1
              obtain ⟨t3, e3, h3⟩ := ih i (j + 1) t2 (by omega) (by omega) (by omega) h2
              simp only [hX, hY, Bool.not_true, Bool.false_eq_true, if_false, e1, e2, e3,
                Option.some_bind]
              apply h3.store hi hj
              rw [recValue_inner cl k X Y (by omega) (by omega) hX hY]
              simp only [recPairCost]
              rw [min_def, min_def]
              split_ifs <;> omega
            · obtain ⟨t1, e1, h1⟩ := ih i (j + 1) t (by omega) (by omega) (by omega) ht
              simp only [hX, hY, Bool.not_true, Bool.not_false, Bool.false_eq_true, if_false,
                if_true, e1, Option.some_bind]
              exact h1.store hi hj
                (recValue_skipY cl k X M i Y (by omega) (by simpa using hY)).symm
          · obtain ⟨t1, e1, h1⟩ := ih (i + 1) j t (by omega) (by omega) (by omega) ht
            simp only [hX, Bool.not_false, if_true, e1, Option.some_bind]
            exact h1.store hi hj
              (recValue_skipX cl k X Y N j (by omega) (by simpa using hX)).symm
    · have hv : m = recValue cl k X M Y N i j := by tauto
      simp only [hN, if_false]
      exact ⟨t, by rw [hv], ht⟩

/-- The initialisation loops set every cell of the memo table to `NOT_YET_COMPUTED`. -/
theorem memoInit_spec (cl : Classifier) (k : Costs) (X : Buf) (M : Nat) (Y : Buf) (N : Nat) :
    ∃ t, memoInit M N = some t ∧ MemoOK cl k X M Y N t := by
  obtain ⟨k1, t1, e1, hk1, h1⟩ := forLoop_spec M 1
    (fun i t => forLoop N 1 (fun j t => t.set i j NOT_YET_COMPUTED) (N + 2) 0 t)
    (fun i t => t.Holds (M + 1) (N + 1) (fun _ _ => NOT_YET_COMPUTED)
      (fun a b => a ≤ M ∧ b ≤ N ∧ a < i)) (le_refl 1)
    (by
      rintro i t hi ht
      obtain ⟨k2, t2, e2, hk2, h2⟩ := forLoop_spec N 1
        (fun j t => t.set i j NOT_YET_COMPUTED)
        (fun j t => t.Holds (M + 1) (N + 1) (fun _ _ => NOT_YET_COMPUTED)
          (fun a b => a ≤ M ∧ b ≤ N ∧ (a < i ∨ (a = i ∧ b < j)))) (le_refl 1)
        (by
          rintro j t hj ht
          exact ht.set (fun a b => a ≤ M ∧ b ≤ N ∧ (a < i ∨ (a = i ∧ b < j + 1)))
            (by omega) (by omega) rfl (fun a b h => by omega))
        (N + 2) 0 t (by omega) (by omega) (ht.mono (fun a b h => by omega))
      exact ⟨t2, e2, h2.mono (fun a b h => by omega)⟩)
    (M + 2) 0 (Table.alloc (M + 1) (N + 1)) (by omega) (by omega)
    ((alloc_holds (M + 1) (N + 1) _).mono (fun a b h => by omega))
  refine ⟨t1, e1, h1.1, h1.2.1, fun a b ha hb => Or.inl ?_⟩
  exact (h1.2.2 a b ⟨ha, hb, by omega⟩).2.2

/-- The recursive engine returns the recurrence on the bases of its two sequences, the
longer one (the first one when the lengths are equal) taken first. -/
theorem rec_eq (cl : Classifier) (k : Costs) (A : Buf) (la : Nat) (B : Buf) (lb : Nat) :
    EditDistance_NW_Rec cl k A la B lb = some
      (if la ≥ lb then
        nwDist (recPairCost cl k) (k.INSERTION_COST : Int) (bases cl (pfx A la)) (bases cl (pfx B lb))
      else
        nwDist (recPairCost cl k) (k.INSERTION_COST : Int) (bases cl (pfx B lb)) (bases cl (pfx A la))) := by
  by_cases h : la ≥ lb
  · obtain ⟨t, e, ht⟩ := memoInit_spec cl k A la B lb
    obtain ⟨t', e', -⟩ := recMemo_spec cl k A la B lb (la + lb + 1) 0 0 t
      (by omega) (by omega) (by omega) ht
    simp only [EditDistance_NW_Rec, h, if_true, e, e', Option.some_bind, recValue, sfx_zero]
  · obtain ⟨t, e, ht⟩ := memoInit_spec cl k B lb A la
    obtain ⟨t', e', -⟩ := recMemo_spec cl k B lb A la (lb + la + 1) 0 0 t
      (by omega) (by omega) (by omega) ht
    simp only [EditDistance_NW_Rec, h, if_false, e, e', Option.some_bind, recValue, sfx_zero]

theorem recPairCost_nonneg (cl : Classifier) (k : Costs) (x y : Char) :
    0 ≤ recPairCost cl k x y := by
  unfold recPairCost; split_ifs <;> omega

/-- A loop whose counter passes the test and is left where it is by the update never
ends: it returns nothing for any fuel. -/
theorem forGen_stuck {ι σ : Type} (test : ι → Bool) (next : ι → ι)
    (body : ι → σ → Option σ) (k : ι) (htest : test k = true) (hnext : next k = k) :
    ∀ (fuel : Nat) (s : σ), forGen test next body fuel k s = none := by
  intro fuel
  induction fuel with
  | zero => intro s; rfl
  | succ n ih =>
    intro s
    simp only [forGen, htest, if_true, hnext]
    cases body k s with
    | none => rfl
    | some s1 => exact ih s1

/-! ## The claims -/

/-- C1, as stated, fails: the tile counters `I` and `J` are `int` and advance by the
`size_t` `block_size`. With `block_size = 2^32` the update `J += block_size` leaves `J` at
1, whose test `J <= lengthB` passes on sequences of length 1: the loop over `J` does not
end, however many iterations it is given and whatever its body does, and the cache-aware
engine returns nothing, where the iterative engine returns 0. -/
theorem cache_aware_never_returns :
    toInt32 (sizeAdd 1 4294967296) = 1 ∧
      (∀ (body : Int → Table → Option Table) (fuel : Nat) (t : Table),
        forGen (fun K => decide (toSizeT K ≤ 1)) (fun K => toInt32 (sizeAdd K 4294967296))
          body fuel 1 t = none) ∧
      EditDistance_NW_cache_aware dna (Buf.ofList ['A']) 1 (Buf.ofList ['A']) 1 4294967296 =
        none ∧
      EditDistance_NW_iterative dna (Buf.ofList ['A']) 1 (Buf.ofList ['A']) 1 = some 0 := by
  refine ⟨by decide, ?_, by decide, by decide⟩
  intro body fuel t
  exact forGen_stuck _ _ body 1 (by decide) (by decide) fuel t

/-- C1, amended: for every pair of sequences and every block size `≥ 1` with which the
`int` tile counters do not wrap (`lengthA + block_size ≤ INT_MAX` and
`lengthB + block_size ≤ INT_MAX`), the cache-aware engine terminates and returns exactly
the value that the iterative engine returns. -/
theorem cache_aware_eq_iterative (cl : Classifier) (A : Buf) (lengthA : Nat) (B : Buf)
    (lengthB : Nat) (block_size : Nat) (hbs : 1 ≤ block_size)
    (hA : lengthA + block_size ≤ INT_MAX) (hB : lengthB + block_size ≤ INT_MAX) :
    ∃ d, EditDistance_NW_cache_aware cl A lengthA B lengthB block_size = some d ∧
      EditDistance_NW_iterative cl A lengthA B lengthB = some d :=
  ⟨_, cache_aware_eq cl A lengthA B lengthB block_size hbs hA hB,
    iterative_eq cl A lengthA B lengthB⟩

theorem cache_aware_eq_iterative_witness :
    (1 ≤ 2 ∧ 5 + 2 ≤ INT_MAX ∧ 3 + 2 ≤ INT_MAX) ∧ ∃ d,
      EditDistance_NW_cache_aware dna (Buf.ofList ['G', 'A', '-', 'T', 'N']) 5
        (Buf.ofList ['G', 'C', 'T']) 3 2 = some d ∧
      EditDistance_NW_iterative dna (Buf.ofList ['G', 'A', '-', 'T', 'N']) 5
        (Buf.ofList ['G', 'C', 'T']) 3 = some d :=
  ⟨by decide, cache_aware_eq_iterative dna _ 5 _ 3 2 (by decide) (by decide) (by decide)⟩

/-- C4 fails on the code: for two sequences of equal length the recursive engine takes the
first one as `X` and tests `isUnknownBase` on `X` only, so with a symmetric `isSameBase` and
the weights substitution 2, unknown 1, indel 2 it returns 1 for (`"N"`, `"A"`) and 2 for
(`"A"`, `"N"`). -/
theorem rec_not_symmetric :
    (∀ x y, dna.isSameBase x y = dna.isSameBase y x) ∧
      EditDistance_NW_Rec dna scenarioCosts (Buf.ofList ['N']) 1 (Buf.ofList ['A']) 1 = some 1 ∧
      EditDistance_NW_Rec dna scenarioCosts (Buf.ofList ['A']) 1 (Buf.ofList ['N']) 1 = some 2 :=
  ⟨fun x y => by simp [dna, eq_comm], by decide, by decide⟩

/-- C7 fails on the code: appending the non-base character `-` to `"N"` makes it the longer
sequence, hence `X`, and the recursive engine, which tests `isUnknownBase` on `X` only,
returns 1 for (`"A"`, `"N-"`) where it returns 2 for (`"A"`, `"N"`), with the weights
substitution 2, unknown 1, indel 2. -/
theorem rec_nonbase_run_changes_result :
    (∀ c ∈ ['-'], dna.isBase c = false) ∧
      EditDistance_NW_Rec dna scenarioCosts (Buf.ofList ['A']) 1 (Buf.ofList ['N']) 1 = some 2 ∧
      EditDistance_NW_Rec dna scenarioCosts (Buf.ofList ['A']) 1 (Buf.ofList (['N'] ++ ['-'])) 2 =
        some 1 := by
  decide

/-- Forgetting the trace gives the engine back: the traced recursion is the same
computation. -/
theorem recMemoTraced_erase (cl : Classifier) (k : Costs) :
    ∀ fuel c i j d log,
      (EditDistance_NW_RecMemoTraced cl k fuel c i j d log).map (fun r => (r.1, r.2.1)) =
        EditDistance_NW_RecMemo cl k fuel c i j := by
  intro fuel
  induction fuel with
  | zero => intro c i j d log; rfl
  | succ fuel ih =>
    intro c i j d log
    simp only [EditDistance_NW_RecMemoTraced, EditDistance_NW_RecMemo]
    rcases hm : c.memo.get i j with _ | m
    · rfl
    · simp only [Option.some_bind]
      by_cases hN : m = NOT_YET_COMPUTED
      · simp only [hN, if_true]
        by_cases hiM : i = c.M
        · by_cases hjN : j = c.N
          · simp only [hiM, hjN, if_true, Option.some_bind]
            rcases c.memo.set c.M c.N 0 with _ | t
            · rfl
            · simp only [Option.some_bind]
              rcases t.get c.M c.N with _ | v <;> rfl
          · simp only [hiM, hjN, if_true, if_false]
            rw [← ih c c.M (j + 1) (d + 1) (log ++ [MemoEvent.call c.M j c.M (j + 1) (d + 1)])]
            rcases EditDistance_NW_RecMemoTraced cl k fuel c c.M (j + 1) (d + 1)
              (log ++ [MemoEvent.call c.M j c.M (j + 1) (d + 1)]) with _ | r
            · rfl
            · simp only [Option.some_bind, Option.map_some']
              rcases r.2.1.memo.set c.M j _ with _ | t
              · rfl
              · simp only [Option.some_bind]
                rcases t.get c.M j with _ | v <;> rfl
        · by_cases hjN : j = c.N
          · simp only [hiM, hjN, if_true, if_false]
            rw [← ih c (i + 1) c.N (d + 1) (log ++ [MemoEvent.call i c.N (i + 1) c.N (d + 1)])]
            rcases EditDistance_NW_RecMemoTraced cl k fuel c (i + 1) c.N (d + 1)
              (log ++ [MemoEvent.call i c.N (i + 1) c.N (d + 1)]) with _ | r
            · rfl
            · simp only [Option.some_bind, Option.map_some']
              rcases r.2.1.memo.set i c.N _ with _ | t
              · rfl
              · simp only [Option.some_bind]
                rcases t.get i c.N with _ | v <;> rfl
          · simp only [hiM, hjN, if_false]
            by_cases hX : cl.isBase (c.X i)
            · by_cases hY : cl.isBase (c.Y j)
              · simp only [hX, hY, Bool.not_true, Bool.false_eq_true, if_false]
                rw [← ih c (i + 1) (j + 1) (d + 1)
                  (log ++ [MemoEvent.call i j (i + 1) (j + 1) (d + 1)])]
                rcases EditDistance_NW_RecMemoTraced cl k fuel c (i + 1) (j + 1) (d + 1)
                  (log ++ [MemoEvent.call i j (i + 1) (j + 1) (d + 1)]) with _ | r1
                · rfl
                · simp only [Option.some_bind, Option.map_some']
                  rw [← ih r1.2.1 (i + 1) j (d + 1)
                    (r1.2.2 ++ [MemoEvent.call i j (i + 1) j (d + 1)])]
                  rcases EditDistance_NW_RecMemoTraced cl k fuel r1.2.1 (i + 1) j (d + 1)
                    (r1.2.2 ++ [MemoEvent.call i j (i + 1) j (d + 1)]) with _ | r2
                  · rfl
                  · simp only [Option.some_bind, Option.map_some']
                    rw [← ih r2.2.1 i (j + 1) (d + 1)
                      (r2.2.2 ++ [MemoEvent.call i j i (j + 1) (d + 1)])]
                    rcases EditDistance_NW_RecMemoTraced cl k fuel r2.2.1 i (j + 1) (d + 1)
                      (r2.2.2 ++ [MemoEvent.call i j i (j + 1) (d + 1)]) with _ | r3
                    · rfl
                    · simp only [Option.some_bind, Option.map_some']
                      rcases r3.2.1.memo.set i j _ with _ | t
                      · rfl
                      · simp only [Option.some_bind]
                        rcases t.get i j with _ | v <;> rfl
              · simp only [hX, hY, Bool.not_true, Bool.not_false, Bool.false_eq_true, if_false,
                  if_true]
                rw [← ih c i (j + 1) (d + 1) (log ++ [MemoEvent.call i j i (j + 1) (d + 1)])]
                rcases EditDistance_NW_RecMemoTraced cl k fuel c i (j + 1) (d + 1)
                  (log ++ [MemoEvent.call i j i (j + 1) (d + 1)]) with _ | r
                · rfl
                · simp only [Option.some_bind, Option.map_some']
                  rcases r.2.1.memo.set i j _ with _ | t
                  · rfl
                  · simp only [Option.some_bind]
                    rcases t.get i j with _ | v <;> rfl
            · simp only [hX, Bool.not_false, if_true]
              rw [← ih c (i + 1) j (d + 1) (log ++ [MemoEvent.call i j (i + 1) j (d + 1)])]
              rcases EditDistance_NW_RecMemoTraced cl k fuel c (i + 1) j (d + 1)
                (log ++ [MemoEvent.call i j (i + 1) j (d + 1)]) with _ | r
              · rfl
              · simp only [Option.some_bind, Option.map_some']
                rcases r.2.1.memo.set i j _ with _ | t
                · rfl
                · simp only [Option.some_bind]
                  rcases t.get i j with _ | v <;> rfl
      · simp [hN]

theorem storePositions_append (a b : List MemoEvent) :
    storePositions (a ++ b) = storePositions a ++ storePositions b := by
  simp [storePositions, List.filterMap_append]

theorem storePositions_call (pi pj i j d : Nat) :
    storePositions [MemoEvent.call pi pj i j d] = [] := rfl

theorem storePositions_store (i j : Nat) (old : Option Int) (v : Int) :
    storePositions [MemoEvent.store i j old v] = [(i, j)] := rfl

theorem mem_storePositions {ev : List MemoEvent} {p : Nat × Nat} :
    p ∈ storePositions ev ↔ ∃ old v, MemoEvent.store p.1 p.2 old v ∈ ev := by
  simp only [storePositions, List.mem_filterMap]
  constructor
  · rintro ⟨e, he, h⟩
    cases e with
    | call pi pj i j d => simp at h
    | store i j old v =>
      simp only [Option.some.injEq] at h
      subst h
      exact ⟨old, v, he⟩
  · rintro ⟨old, v, h⟩
    exact ⟨_, h, rfl⟩

theorem recValue_nonneg (cl : Classifier) (k : Costs) (X : Buf) (M : Nat) (Y : Buf) (N : Nat)
    (i j : Nat) : 0 ≤ recValue cl k X M Y N i j :=
  nwDist_nonneg _ _ (recPairCost_nonneg cl k) (by positivity) _ _

theorem recValue_ne_sentinel (cl : Classifier) (k : Costs) (X : Buf) (M : Nat) (Y : Buf)
    (N : Nat) (i j : Nat) : recValue cl k X M Y N i j ≠ NOT_YET_COMPUTED := by
  have := recValue_nonneg cl k X M Y N i j
  unfold NOT_YET_COMPUTED
  omega

section Run

variable {cl : Classifier} {k : Costs} {X : Buf} {M : Nat} {Y : Buf} {N : Nat}

theorem MemoRun.refl {s0 s : Nat} {t : Table} (h : MemoOK cl k X M Y N t) :
    MemoRun cl k X M Y N s0 s t [] t :=
  ⟨h, by simp, by simp [storePositions], fun _ _ _ => rfl, by simp [storePositions]⟩

theorem MemoRun.weaken {s0 s s' : Nat} {t t' : Table} {ev : List MemoEvent}
    (h : MemoRun cl k X M Y N s0 s t ev t') (hs : s' ≤ s) :
    MemoRun cl k X M Y N s0 s' t ev t' := by
  obtain ⟨h1, h2, h3, h4, h5⟩ := h
  refine ⟨h1, h2, fun p hp => ?_, h4, h5⟩
  obtain ⟨a, b, c⟩ := h3 p hp
  exact ⟨a, b, by omega⟩

theorem MemoRun.trans {s0 s : Nat} {t t1 t2 : Table} {ev1 ev2 : List MemoEvent}
    (h1 : MemoRun cl k X M Y N s0 s t ev1 t1) (h2 : MemoRun cl k X M Y N s0 s t1 ev2 t2) :
    MemoRun cl k X M Y N s0 s t (ev1 ++ ev2) t2 := by
  obtain ⟨-, e1, p1, f1, n1⟩ := h1
  obtain ⟨ok2, e2, p2, f2, n2⟩ := h2
  refine ⟨ok2, ?_, ?_, ?_, ?_⟩
  · intro e he
    rcases List.mem_append.1 he with h | h
    · exact e1 e h
    · exact e2 e h
  · intro p hp
    rw [storePositions_append] at hp
    rcases List.mem_append.1 hp with h | h
    · obtain ⟨a, b, c⟩ := p1 p h
      refine ⟨a, ?_, c⟩
      by_cases h' : p ∈ storePositions ev2
      · exact (p2 p h').2.1
      · rw [f2 p.1 p.2 h']; exact b
    · obtain ⟨a, b, c⟩ := p2 p h
      refine ⟨?_, b, c⟩
      have h' : (p.1, p.2) ∉ storePositions ev1 := fun hmem => (p1 p hmem).2.1 a
      rw [← f1 p.1 p.2 h']; exact a
  · intro a b hab
    rw [storePositions_append, List.mem_append, not_or] at hab
    rw [f2 a b hab.2, f1 a b hab.1]
  · rw [storePositions_append]
    refine List.nodup_append.2 ⟨n1, n2, ?_⟩
    intro p hp1 hp2
    exact (p1 p hp1).2.1 (p2 p hp2).1

theorem MemoRun.afterCall {s0 s : Nat} {t t' : Table} {ev : List MemoEvent}
    {pi pj i j d : Nat} (h : MemoRun cl k X M Y N s0 s t ev t')
    (hc : MemoEvent.OK cl k X M Y N s0 (MemoEvent.call pi pj i j d)) :
    MemoRun cl k X M Y N s0 s t ([MemoEvent.call pi pj i j d] ++ ev) t' := by
  obtain ⟨h1, h2, h3, h4, h5⟩ := h
  refine ⟨h1, ?_, ?_, ?_, ?_⟩
  · intro e he
    rcases List.mem_append.1 he with h | h
    · rw [List.mem_singleton.1 h]; exact hc
    · exact h2 e h
  · simpa [storePositions_append, storePositions_call] using h3
  · simpa [storePositions_append, storePositions_call] using h4
  · simpa [storePositions_append, storePositions_call] using h5

/-- The end of an invocation that has run the recurrence body: the assignment
`memo[i][j] = res` and the `return c->memo[i][j]`. -/
theorem MemoRun.finish {s0 : Nat} {t t1 : Table} {ev : List MemoEvent} {i j : Nat}
    (h : MemoRun cl k X M Y N s0 (i + j + 1) t ev t1) (hi : i ≤ M) (hj : j ≤ N)
    (hcell : t.cell i j = some NOT_YET_COMPUTED) {v : Int}
    (hv : v = recValue cl k X M Y N i j) (log L : List MemoEvent) (hL : L = log ++ ev) :
    ∃ t' ev', ((t1.set i j v).bind fun memo => (memo.get i j).bind fun w =>
        some (w, (⟨X, Y, M, N, memo⟩ : NW_MemoContext),
          L ++ [MemoEvent.store i j (t1.get i j) v])) =
          some (recValue cl k X M Y N i j, ⟨X, Y, M, N, t'⟩, log ++ ev') ∧
      MemoRun cl k X M Y N s0 (i + j) t ev' t' := by
  have hnot : (i, j) ∉ storePositions ev := fun hmem => by
    have := (h.2.2.1 (i, j) hmem).2.2
    simp only at this
    omega
  have hcell1 : t1.cell i j = some NOT_YET_COMPUTED := by rw [h.2.2.2.1 i j hnot]; exact hcell
  obtain ⟨hr, hc, hcells⟩ := h.1
  have h1 : i < t1.rows := by omega
  have h2 : j < t1.cols := by omega
  have hget : t1.get i j = some NOT_YET_COMPUTED := by simp [Table.get, h1, h2, hcell1]
  refine ⟨⟨t1.rows, t1.cols, fun a b => if a = i ∧ b = j then some v else t1.cell a b⟩,
    ev ++ [MemoEvent.store i j (some NOT_YET_COMPUTED) v], ?_, ?_⟩
  · simp [Table.set, Table.get, h1, h2, hv, hL, hcell1]
  · refine MemoRun.trans (h.weaken (by omega)) ⟨⟨hr, hc, ?_⟩, ?_, ?_, ?_, ?_⟩
    · intro a b ha hb
      show (if a = i ∧ b = j then some v else t1.cell a b) = _ ∨
        (if a = i ∧ b = j then some v else t1.cell a b) = _
      split
      · next hij => obtain ⟨rfl, rfl⟩ := hij; exact Or.inr (by rw [hv])
      · exact hcells a b ha hb
    · intro e he
      rw [List.mem_singleton.1 he]
      exact ⟨hi, hj, rfl, hv⟩
    · intro p hp
      rw [storePositions_store, List.mem_singleton] at hp
      subst hp
      refine ⟨hcell1, ?_, le_refl _⟩
      show (if i = i ∧ j = j then some v else t1.cell i j) ≠ _
      simp only [and_self, if_true, ne_eq, Option.some.injEq]
      rw [hv]; exact recValue_ne_sentinel cl k X M Y N i j
    · intro a b hab
      rw [storePositions_store, List.mem_singleton, Prod.mk.injEq] at hab
      show (if a = i ∧ b = j then some v else t1.cell a b) = _
      rw [if_neg hab]
    · simp [storePositions_store]

theorem MemoOK.cell_of_get {t : Table} (h : MemoOK cl k X M Y N t) {a b : Nat} (ha : a ≤ M)
    (hb : b ≤ N) {m : Int} (hm : t.get a b = some m) : t.cell a b = some m := by
  obtain ⟨hr, hc, -⟩ := h
  have h1 : a < t.rows := by omega
  have h2 : b < t.cols := by omega
  simpa [Table.get, h1, h2] using hm

end Run

/-- The traced recursion returns `phi(i, j)`, and its trace and memo table are as
`MemoRun` describes; a fuel above `(M - i) + (N - j)` is enough. -/
theorem recMemoTraced_spec (cl : Classifier) (k : Costs) (X : Buf) (M : Nat) (Y : Buf)
    (N : Nat) (s0 : Nat) :
    ∀ fuel i j t d log, i ≤ M → j ≤ N → (M - i) + (N - j) < fuel → d + s0 ≤ i + j →
      MemoOK cl k X M Y N t →
      ∃ t' ev, EditDistance_NW_RecMemoTraced cl k fuel ⟨X, Y, M, N, t⟩ i j d log =
          some (recValue cl k X M Y N i j, ⟨X, Y, M, N, t'⟩, log ++ ev) ∧
        MemoRun cl k X M Y N s0 (i + j) t ev t' := by
  intro fuel
  induction fuel with
  | zero => intro i j t d log _ _ h; omega
  | succ fuel ih =>
    intro i j t d log hi hj hf hd ht
    obtain ⟨m, hm, hm'⟩ := ht.lookup hi hj
    have hcell := ht.cell_of_get hi hj hm
    simp only [EditDistance_NW_RecMemoTraced, hm, Option.some_bind]
    by_cases hN : m = NOT_YET_COMPUTED
    · rw [hN] at hcell
      simp only [hN, if_true]
      by_cases hiM : i = M
      · by_cases hjN : j = N
        · subst hiM; subst hjN
          simp only [if_true, Option.some_bind]
          exact (MemoRun.refl ht).finish hi hj hcell (recValue_end cl k X i Y j).symm log log
            (by simp)
        · subst hiM
          obtain ⟨t1, ev1, e1, r1⟩ := ih i (j + 1) t (d + 1)
            (log ++ [MemoEvent.call i j i (j + 1) (d + 1)])
            hi (by omega) (by omega) (by omega) ht
          have hc : MemoEvent.OK cl k X i Y N s0 (MemoEvent.call i j i (j + 1) (d + 1)) :=
            ⟨by omega, by omega, by omega, by omega, by omega, by omega⟩
          simp only [hjN, if_true, if_false, e1, Option.some_bind]
          exact ((r1.weaken (by omega)).afterCall hc).finish hi hj hcell
            (recValue_endX cl k X i Y (by omega)).symm log _ (by simp [List.append_assoc])
      · by_cases hjN : j = N
        · subst hjN
          obtain ⟨t1, ev1, e1, r1⟩ := ih (i + 1) j t (d + 1)
            (log ++ [MemoEvent.call i j (i + 1) j (d + 1)])
            (by omega) hj (by omega) (by omega) ht
          have hc : MemoEvent.OK cl k X M Y j s0 (MemoEvent.call i j (i + 1) j (d + 1)) :=
            ⟨by omega, by omega, by omega, by omega, by omega, by omega⟩
          simp only [hiM, if_true, if_false, e1, Option.some_bind]
          exact ((r1.weaken (by omega)).afterCall hc).finish hi hj hcell
            (recValue_endY cl k X Y j (by omega)).symm log _ (by simp [List.append_assoc])
        · simp only [hiM, hjN, if_false]
          have hc1 : MemoEvent.OK cl k X M Y N s0
              (MemoEvent.call i j (i + 1) (j + 1) (d + 1)) :=
            ⟨by omega, by omega, by omega, by omega, by omega, by omega⟩
          have hc2 : MemoEvent.OK cl k X M Y N s0 (MemoEvent.call i j (i + 1) j (d + 1)) :=
            ⟨by omega, by omega, by omega, by omega, by omega, by omega⟩
          have hc3 : MemoEvent.OK cl k X M Y N s0 (MemoEvent.call i j i (j + 1) (d + 1)) :=
            ⟨by omega, by omega, by omega, by omega, by omega, by omega⟩
          by_cases hX : cl.isBase (X i)
          · by_cases hY : cl.isBase (Y j)
            · obtain ⟨t1, ev1, e1, r1⟩ := ih (i + 1) (j + 1) t (d + 1)
                (log ++ [MemoEvent.call i j (i + 1) (j + 1) (d + 1)])
                (by omega) (by omega) (by omega) (by omega) ht
              obtain ⟨t2, ev2, e2, r2⟩ := ih (i + 1) j t1 (d + 1)
                ((log ++ [MemoEvent.call i j (i + 1) (j + 1) (d + 1)] ++ ev1) ++
                  [MemoEvent.call i j (i + 1) j (d + 1)])
                (by omega) (by omega) (by omega) (by omega) r1.1
              obtain ⟨t3, ev3, e3, r3⟩ := ih i (j + 1) t2 (d + 1)
                (((log ++ [MemoEvent.call i j (i + 1) (j + 1) (d + 1)] ++ ev1) ++
                  [MemoEvent.call i j (i + 1) j (d + 1)] ++ ev2) ++
                  [MemoEvent.call i j i (j + 1) (d + 1)])
                (by omega) (by omega) (by omega) (by omega) r2.1
              simp only [hX, hY, Bool.not_true, Bool.false_eq_true, if_false, e1, e2, e3,
                Option.some_bind]
              refine (((r1.weaken (by omega)).afterCall hc1).trans
                (((r2.weaken (by omega)).afterCall hc2).trans
                ((r3.weaken (by omega)).afterCall hc3))).finish
                hi hj hcell ?_ log _ (by simp [List.append_assoc])
              rw [recValue_inner cl k X Y (by omega) (by omega) hX hY]
              simp only [recPairCost]
              rw [min_def, min_def]
              split_ifs <;> omega
            · obtain ⟨t1, ev1, e1, r1⟩ := ih i (j + 1) t (d + 1)
                (log ++ [MemoEvent.call i j i (j + 1) (d + 1)])
                (by omega) (by omega) (by omega) (by omega) ht
              simp only [hX, hY, Bool.not_true, Bool.not_false, Bool.false_eq_true, if_false,
                if_true, e1, Option.some_bind]
              exact ((r1.weaken (by omega)).afterCall hc3).finish hi hj hcell
                (recValue_skipY cl k X M i Y (by omega) (by simpa using hY)).symm log _
                (by simp [List.append_assoc])
          · obtain ⟨t1, ev1, e1, r1⟩ := ih (i + 1) j t (d + 1)
              (log ++ [MemoEvent.call i j (i + 1) j (d + 1)])
              (by omega) (by omega) (by omega) (by omega) ht
            simp only [hX, Bool.not_false, if_true, e1, Option.some_bind]
            exact ((r1.weaken (by omega)).afterCall hc2).finish hi hj hcell
              (recValue_skipX cl k X Y N j (by omega) (by simpa using hX)).symm log _
              (by simp [List.append_assoc])
    · have hv : m = recValue cl k X M Y N i j := by tauto
      simp only [hN, if_false]
      exact ⟨t, [], by rw [hv]; simp, MemoRun.refl ht⟩

theorem suffixExhausted_eq (cl : Classifier) (k : Costs) (ys : List Char) :
    suffixExhausted cl k ys = (k.INSERTION_COST : Int) * ((bases cl ys).length : Int) := by
  induction ys with
  | nil => simp [suffixExhausted, bases]
  | cons y ys ih =>
    rw [suffixExhausted, ih, bases_cons, skipOrInsertCost]
    by_cases h : cl.isBase y
    · simp only [h, if_true, List.length_cons]; push_cast; ring
    · simp [h]

/-- The spec's suffix recurrence, which skips non-base characters as it goes, is the
recurrence on the bases. -/
theorem suffixRecurrence_eq (cl : Classifier) (k : Costs) (xs ys : List Char) :
    suffixRecurrence cl k xs ys =
      nwDist (recPairCost cl k) (k.INSERTION_COST : Int) (bases cl xs) (bases cl ys) := by
  induction xs generalizing ys with
  | nil =>
    show suffixExhausted cl k ys = _
    rw [suffixExhausted_eq]; simp [bases, nwDist_nil_left]
  | cons x xs ih =>
    show suffixRow cl k x (suffixRecurrence cl k xs) ys = _
    induction ys with
    | nil =>
      rw [suffixRow, ih, bases_cons, skipOrInsertCost]
      by_cases h : cl.isBase x
      · simp only [h, if_true, bases, List.filter_nil, nwDist_nil_right, List.length_cons]
        push_cast; ring
      · simp [h]
    | cons y ys ihy =>
      rw [suffixRow, bases_cons cl x, bases_cons cl y]
      by_cases hx : cl.isBase x
      · by_cases hy : cl.isBase y
        · simp only [hx, hy, if_true, Bool.true_eq_false, if_false, nwDist_cons_cons]
          rw [ih ys, ih (y :: ys), ihy, bases_cons cl x, bases_cons cl y]
          simp only [hx, hy, if_true]
          rfl
        · simp only [hx, hy, if_true, Bool.true_eq_false, if_false]
          rw [ihy, bases_cons cl x]
          simp [hx]
      · simp only [hx, if_true]
        rw [ih, bases_cons cl y]
        simp [hx]

theorem phi_eq_recValue (cl : Classifier) (k : Costs) (X : Buf) (M : Nat) (Y : Buf) (N : Nat)
    (i j : Nat) : phi cl k X M Y N i j = recValue cl k X M Y N i j :=
  suffixRecurrence_eq cl k _ _

/-! ## The schedule of the cache-aware engine -/

theorem Factors.loop {σ ε : Type} {step : σ → ε → Option σ} (hi st : Nat)
    {bl : Nat → List ε → Option (List ε)} {bt : Nat → σ → Option σ}
    (hb : ∀ k, Factors step (bl k) (bt k)) :
    ∀ fuel k0, Factors step (forLoop hi st bl fuel k0) (forLoop hi st bt fuel k0) := by
  intro fuel
  induction fuel with
  | zero => intro k0; exact Or.inl ⟨fun _ => rfl, fun _ => rfl⟩
  | succ fuel ih =>
    intro k0
    by_cases h : k0 ≤ hi
    · rcases hb k0 with ⟨hl, ht⟩ | ⟨es, hl, ht⟩
      · exact Or.inl ⟨fun l => by simp [forLoop, h, hl], fun s => by simp [forLoop, h, ht]⟩
      · rcases ih (k0 + st) with ⟨hl', ht'⟩ | ⟨es', hl', ht'⟩
        · refine Or.inl ⟨fun l => by simp [forLoop, h, hl, hl'], fun s => ?_⟩
          simp only [forLoop, h, if_true, ht]
          rcases List.foldlM step s es with _ | s'
          · rfl
          · exact ht' s'
        · refine Or.inr ⟨es ++ es', fun l => by simp [forLoop, h, hl, hl'], fun s => ?_⟩
          simp only [forLoop, h, if_true, ht, List.foldlM_append]
          rcases List.foldlM step s es with _ | s'
          · rfl
          · exact ht' s'
    · exact Or.inr ⟨[], fun l => by simp [forLoop, h], fun s => by simp [forLoop, h]⟩

theorem Factors.gen {ι σ ε : Type} {step : σ → ε → Option σ} (test : ι → Bool)
    (next : ι → ι) {bl : ι → List ε → Option (List ε)} {bt : ι → σ → Option σ}
    (hb : ∀ k, Factors step (bl k) (bt k)) :
    ∀ fuel k0, Factors step (forGen test next bl fuel k0) (forGen test next bt fuel k0) := by
  intro fuel
  induction fuel with
  | zero => intro k0; exact Or.inl ⟨fun _ => rfl, fun _ => rfl⟩
  | succ fuel ih =>
    intro k0
    by_cases h : test k0 = true
    · rcases hb k0 with ⟨hl, ht⟩ | ⟨es, hl, ht⟩
      · exact Or.inl ⟨fun l => by simp [forGen, h, hl], fun s => by simp [forGen, h, ht]⟩
      · rcases ih (next k0) with ⟨hl', ht'⟩ | ⟨es', hl', ht'⟩
        · refine Or.inl ⟨fun l => by simp [forGen, h, hl, hl'], fun s => ?_⟩
          simp only [forGen, h, if_true, ht]
          rcases List.foldlM step s es with _ | s'
          · rfl
          · exact ht' s'
        · refine Or.inr ⟨es ++ es', fun l => by simp [forGen, h, hl, hl'], fun s => ?_⟩
          simp only [forGen, h, if_true, ht, List.foldlM_append]
          rcases List.foldlM step s es with _ | s'
          · rfl
          · exact ht' s'
    · exact Or.inr ⟨[], fun l => by simp [forGen, h], fun s => by simp [forGen, h]⟩

theorem Factors.tiles {σ ε : Type} {step : σ → ε → Option σ} (hi st : Nat)
    {bl : Int → List ε → Option (List ε)} {bt : Int → σ → Option σ}
    (hb : ∀ k, Factors step (bl k) (bt k)) (k0 : Int) :
    Factors step (tileLoop hi st bl k0) (tileLoop hi st bt k0) :=
  Factors.gen _ _ hb _ k0

theorem Factors.ints {σ ε : Type} {step : σ → ε → Option σ} (hi : Int)
    {bl : Int → List ε → Option (List ε)} {bt : Int → σ → Option σ}
    (hb : ∀ k, Factors step (bl k) (bt k)) (lo : Int) :
    Factors step (intLoop hi bl lo) (intLoop hi bt lo) :=
  Factors.gen _ _ hb _ lo

theorem Factors.seq {σ ε : Type} {step : σ → ε → Option σ}
    {bl1 bl2 : List ε → Option (List ε)} {bt1 bt2 : σ → Option σ}
    (h1 : Factors step bl1 bt1) (h2 : Factors step bl2 bt2) :
    Factors step (fun l => (bl1 l).bind bl2) (fun s => (bt1 s).bind bt2) := by
  rcases h1 with ⟨hl, ht⟩ | ⟨es, hl, ht⟩
  · exact Or.inl ⟨fun l => by simp [hl], fun s => by simp [ht]⟩
  · rcases h2 with ⟨hl', ht'⟩ | ⟨es', hl', ht'⟩
    · refine Or.inl ⟨fun l => by simp [hl, hl'], fun s => ?_⟩
      simp only [ht]
      rcases List.foldlM step s es with _ | s'
      · rfl
      · exact ht' s'
    · refine Or.inr ⟨es ++ es', fun l => by simp [hl, hl'], fun s => ?_⟩
      simp only [ht, List.foldlM_append]
      rcases List.foldlM step s es with _ | s'
      · rfl
      · exact ht' s'

theorem Factors.one {σ ε : Type} (step : σ → ε → Option σ) (e : ε) :
    Factors step (fun l => some (l ++ [e])) (fun s => step s e) := by
  refine Or.inr ⟨[e], fun l => rfl, fun s => ?_⟩
  simp only [List.foldlM_cons, List.foldlM_nil]
  rcases step s e with _ | s' <;> rfl

/-- The cache-aware engine is the execution, in order, of the loop bodies that its schedule
lists. -/
theorem cacheAwareTable_factors (cl : Classifier) (A : Buf) (la : Nat) (B : Buf) (lb : Nat)
    (bs : Nat) :
    cacheAwareTable cl A la B lb bs =
      ((Table.alloc (la + 1) (lb + 1)).set 0 0 0).bind fun t =>
        (cacheAwareSchedule la lb bs).bind fun es => es.foldlM (tabStep cl A B) t := by
  have h1 := Factors.loop la 1 (fun i => Factors.one (tabStep cl A B) (TabEvent.column i))
    (la + 1) 1
  have h2 := Factors.loop lb 1 (fun j => Factors.one (tabStep cl A B) (TabEvent.row j))
    (lb + 1) 1
  have h3 := Factors.tiles la bs (fun I => Factors.tiles lb bs (fun J =>
    Factors.ints (toInt32 (if sizeAdd I bs < la then sizeAdd I bs else la)) (fun i =>
      Factors.ints (toInt32 (if sizeAdd J bs < lb then sizeAdd J bs else lb))
        (fun j => Factors.one (tabStep cl A B) (TabEvent.cell i j)) J) I) 1) 1
  have h := h1.seq (h2.seq h3)
  simp only [cacheAwareTable, initBorders, Option.bind_assoc]
  rcases (Table.alloc (la + 1) (lb + 1)).set 0 0 0 with _ | t
  · rfl
  · simp only [Option.some_bind]
    rcases h with ⟨hl, ht⟩ | ⟨es, hl, ht⟩
    · have e1 : cacheAwareSchedule la lb bs = none := hl []
      rw [e1]
      exact ht t
    · have e1 : cacheAwareSchedule la lb bs = some ([] ++ es) := hl []
      rw [e1]
      exact ht t

/-- For a positive block size with which the tile counters do not wrap, the loops of the
cache-aware engine end, and every loop body they execute has its indices in range. -/
theorem cacheAwareSchedule_inRange (la lb bs : Nat) (hbs : 1 ≤ bs)
    (hA : la + bs ≤ INT_MAX) (hB : lb + bs ≤ INT_MAX) :
    ∃ es, cacheAwareSchedule la lb bs = some es ∧ ∀ e ∈ es, TabEvent.InRange la lb e := by
  have hA' := hA
  have hB' := hB
  unfold INT_MAX at hA' hB'
  have snoc : ∀ (l : List TabEvent) (e : TabEvent), (∀ x ∈ l, TabEvent.InRange la lb x) →
      TabEvent.InRange la lb e → ∀ x ∈ l ++ [e], TabEvent.InRange la lb x := by
    intro l e hl he x hx
    rcases List.mem_append.1 hx with h | h
    · exact hl x h
    · rw [List.mem_singleton.1 h]; exact he
  obtain ⟨k1, l1, e1, -, -, h1⟩ := forLoop_spec la 1
    (fun i l => some (l ++ [TabEvent.column i]))
    (fun i l => 1 ≤ i ∧ ∀ e ∈ l, TabEvent.InRange la lb e) (le_refl 1)
    (by
      rintro i l hi ⟨hi1, hl⟩
      exact ⟨_, rfl, by omega, snoc l _ hl ⟨hi1, hi⟩⟩)
    (la + 1) 1 [] (by omega) (by omega) ⟨le_refl 1, by simp⟩
  obtain ⟨k2, l2, e2, -, -, h2⟩ := forLoop_spec lb 1
    (fun j l => some (l ++ [TabEvent.row j]))
    (fun j l => 1 ≤ j ∧ ∀ e ∈ l, TabEvent.InRange la lb e) (le_refl 1)
    (by
      rintro j l hj ⟨hj1, hl⟩
      exact ⟨_, rfl, by omega, snoc l _ hl ⟨hj1, hj⟩⟩)
    (lb + 1) 1 l1 (by omega) (by omega) ⟨le_refl 1, h1⟩
  obtain ⟨k3, l3, e3, -, -, -, h3⟩ := forGen_spec
    (fun K => decide (toSizeT K ≤ la)) (fun K => toInt32 (sizeAdd K bs))
    (fun I l => tileLoop lb bs (fun J l =>
      intLoop (toInt32 (if sizeAdd I bs < la then sizeAdd I bs else la)) (fun i l =>
        intLoop (toInt32 (if sizeAdd J bs < lb then sizeAdd J bs else lb))
          (fun j l => some (l ++ [TabEvent.cell i j])) J l) I l) 1 l)
    (fun I l => 1 ≤ I ∧ I ≤ (la : Int) + bs ∧ ∀ e ∈ l, TabEvent.InRange la lb e)
    (fun I => ((la : Int) + 1 - I).toNat)
    (by
      rintro I l hI ⟨hI1, hI3, hl⟩
      beta_reduce at hI ⊢
      have hI2 : I ≤ la :=
        (toSizeT_le (by omega) (by unfold INT_MAX; omega)).1 (of_decide_eq_true hI)
      rw [toInt32_sizeAdd (by omega) hI2 hA]
      obtain ⟨k4, l4, e4, -, -, -, h4⟩ := forGen_spec
        (fun K => decide (toSizeT K ≤ lb)) (fun K => toInt32 (sizeAdd K bs))
        (fun J l =>
          intLoop (toInt32 (if sizeAdd I bs < la then sizeAdd I bs else la)) (fun i l =>
            intLoop (toInt32 (if sizeAdd J bs < lb then sizeAdd J bs else lb))
              (fun j l => some (l ++ [TabEvent.cell i j])) J l) I l)
        (fun J l => 1 ≤ J ∧ J ≤ (lb : Int) + bs ∧ ∀ e ∈ l, TabEvent.InRange la lb e)
        (fun J => ((lb : Int) + 1 - J).toNat)
        (by
          rintro J l hJ ⟨hJ1, hJ3, hl⟩
          beta_reduce at hJ ⊢
          have hJ2 : J ≤ lb :=
            (toSizeT_le (by omega) (by unfold INT_MAX; omega)).1 (of_decide_eq_true hJ)
          rw [toInt32_sizeAdd (by omega) hJ2 hB, tile_end (by omega) hI2 hA,
            tile_end (by omega) hJ2 hB]
          obtain ⟨k5, l5, e5, -, -, h5⟩ := forGen_spec
            (fun i => decide (i ≤ min (I + bs) (la : Int))) (fun i => i + 1)
            (fun i l => intLoop (min (J + bs) (lb : Int))
              (fun j l => some (l ++ [TabEvent.cell i j])) J l)
            (fun i l => I ≤ i ∧ ∀ e ∈ l, TabEvent.InRange la lb e)
            (fun i => (min (I + bs) (la : Int) + 1 - i).toNat)
            (by
              rintro i l hi ⟨hi1, hl⟩
              beta_reduce at hi ⊢
              have hi' : i ≤ min (I + bs) (la : Int) := of_decide_eq_true hi
              obtain ⟨k6, l6, e6, -, -, h6⟩ := forGen_spec
                (fun j => decide (j ≤ min (J + bs) (lb : Int))) (fun j => j + 1)
                (fun j l => some (l ++ [TabEvent.cell i j]))
                (fun j l => J ≤ j ∧ ∀ e ∈ l, TabEvent.InRange la lb e)
                (fun j => (min (J + bs) (lb : Int) + 1 - j).toNat)
                (by
                  rintro j l hj ⟨hj1, hl⟩
                  beta_reduce at hj ⊢
                  have hj' : j ≤ min (J + bs) (lb : Int) := of_decide_eq_true hj
                  exact ⟨_, rfl, ⟨by omega,
                    snoc l _ hl ⟨by omega, by omega, by omega, by omega⟩⟩, by omega⟩)
                ((min (J + bs) (lb : Int) + 1 - J).toNat + 1) J l (by beta_reduce; omega)
                ⟨le_refl J, hl⟩
              exact ⟨l6, e6, ⟨by omega, h6⟩, by omega⟩)
            ((min (I + bs) (la : Int) + 1 - I).toNat + 1) I l (by beta_reduce; omega)
            ⟨le_refl I, hl⟩
          exact ⟨l5, e5, ⟨by omega, by omega, h5⟩, by omega⟩)
        (lb + 2) 1 l (by beta_reduce; omega) ⟨le_refl 1, by omega, hl⟩
      exact ⟨l4, e4, ⟨by omega, by omega, h4⟩, by omega⟩)
    (la + 2) 1 l2 (by beta_reduce; omega) ⟨le_refl 1, by omega, h2⟩
  refine ⟨l3, ?_, h3⟩
  simp only [cacheAwareSchedule, e1, e2, Option.some_bind]
  exact e3

/-! ## Bounds on the recurrence -/

/-- When the unknown base is on the `X` side, the recursive engine prices the pair with
`SUBSTITUTION_UNKNOWN_COST`. -/
theorem rec_unknown_on_X (cl : Classifier) (k : Costs) (x y : Char)
    (hx : cl.isBase x = true) (hy : cl.isBase y = true) (hu : cl.isUnknownBase x = true) :
    EditDistance_NW_Rec cl k (Buf.ofList [x]) 1 (Buf.ofList [y]) 1 =
      some (min (k.SUBSTITUTION_UNKNOWN_COST : Int) (2 * (k.INSERTION_COST : Int))) := by
  have e1 : pfx (Buf.ofList [x]) 1 = [x] := pfx_ofList [x]
  have e2 : pfx (Buf.ofList [y]) 1 = [y] := pfx_ofList [y]
  rw [rec_eq, if_pos (le_refl _), e1, e2]
  simp only [bases, List.filter_cons, List.filter_nil, hx, hy, if_true, nwDist_cons_cons,
    nwDist_nil_left, nwDist_nil_right, recPairCost, hu, List.length_cons, List.length_nil]
  congr 1
  rw [min_def, min_def, min_def]
  split_ifs <;> omega

/-- C11 fails on the code: with the known base `A` as `X` and the unknown base `N` as `Y`
(equal lengths, so the first argument is `X`) and the weights substitution 2, unknown 1,
indel 2, the recursive engine returns 2, the price of a substitution, where
`min(SUBSTITUTION_UNKNOWN_COST, 2 * INSERTION_COST)` is 1. -/
theorem rec_unknown_on_Y :
    (dna.isBase 'A' = true ∧ dna.isBase 'N' = true ∧ dna.isUnknownBase 'N' = true) ∧
      EditDistance_NW_Rec dna scenarioCosts (Buf.ofList ['A']) 1 (Buf.ofList ['N']) 1 = some 2 ∧
      min (scenarioCosts.SUBSTITUTION_UNKNOWN_COST : Int)
        (2 * (scenarioCosts.INSERTION_COST : Int)) = 1 := by
  decide

/-- C13: for every context whose table is all `NOT_YET_COMPUTED`, with enough fuel for the
nesting, `EditDistance_NW_RecMemo(c, 0, 0)` returns `f(0,0)`, `f` being the plain suffix
recurrence of spec §4.1; the traced run is the same computation, every assignment it makes
to a cell `(i, j)` stores `f(i, j)`, and every cell of the final table holds
`NOT_YET_COMPUTED` or `f` of its position. -/
theorem memo_returns_suffix_recurrence (cl : Classifier) (k : Costs) (X : Buf) (M : Nat)
    (Y : Buf) (N : Nat) (t : Table) (fuel : Nat) (hr : t.rows = M + 1) (hc : t.cols = N + 1)
    (hall : ∀ a b, a ≤ M → b ≤ N → t.cell a b = some NOT_YET_COMPUTED)
    (hfuel : M + N < fuel) :
    ∃ c ev, EditDistance_NW_RecMemo cl k fuel ⟨X, Y, M, N, t⟩ 0 0 =
        some (phi cl k X M Y N 0 0, c) ∧
      EditDistance_NW_RecMemoTraced cl k fuel ⟨X, Y, M, N, t⟩ 0 0 0 [] =
        some (phi cl k X M Y N 0 0, c, ev) ∧
      (∀ i j old v, MemoEvent.store i j old v ∈ ev → v = phi cl k X M Y N i j) ∧
      (∀ i j v, c.memo.get i j = some v →
        v = NOT_YET_COMPUTED ∨ v = phi cl k X M Y N i j) := by
  have hok : MemoOK cl k X M Y N t := ⟨hr, hc, fun a b ha hb => Or.inl (hall a b ha hb)⟩
  obtain ⟨t', ev, e, r⟩ := recMemoTraced_spec cl k X M Y N 0 fuel 0 0 t 0 []
    (by omega) (by omega) (by omega) (by omega) hok
  rw [List.nil_append] at e
  refine ⟨⟨X, Y, M, N, t'⟩, ev, ?_, ?_, ?_, ?_⟩
  · rw [← recMemoTraced_erase cl k fuel _ 0 0 0 [], e, phi_eq_recValue]; rfl
  · rw [e, phi_eq_recValue]
  · intro i j old v h
    rw [phi_eq_recValue]
    exact (r.2.1 _ h).2.2.2
  · intro i j v h
    obtain ⟨hr', hc', hcell⟩ := r.1
    have hin : i < t'.rows ∧ j < t'.cols := by
      by_contra hn
      simp [Table.get, hn] at h
    have hv : t'.cell i j = some v := by simpa [Table.get, hin] using h
    rw [phi_eq_recValue]
    rcases hcell i j (by omega) (by omega) with h' | h'
    · rw [h'] at hv; exact Or.inl (Option.some.inj hv).symm
    · rw [h'] at hv; exact Or.inr (Option.some.inj hv).symm

theorem memo_returns_suffix_recurrence_witness :
    ((freshMemo 2 1).rows = 2 + 1 ∧ (freshMemo 2 1).cols = 1 + 1 ∧
      (∀ a b, a ≤ 2 → b ≤ 1 → (freshMemo 2 1).cell a b = some NOT_YET_COMPUTED) ∧
      2 + 1 < 4) ∧
    ∃ c ev, EditDistance_NW_RecMemo dna scenarioCosts 4
        ⟨Buf.ofList ['G', '-', 'N'], Buf.ofList ['C'], 2, 1, freshMemo 2 1⟩ 0 0 =
        some (phi dna scenarioCosts (Buf.ofList ['G', '-', 'N']) 2 (Buf.ofList ['C']) 1 0 0, c) ∧
      EditDistance_NW_RecMemoTraced dna scenarioCosts 4
        ⟨Buf.ofList ['G', '-', 'N'], Buf.ofList ['C'], 2, 1, freshMemo 2 1⟩ 0 0 0 [] =
        some (phi dna scenarioCosts (Buf.ofList ['G', '-', 'N']) 2 (Buf.ofList ['C']) 1 0 0,
          c, ev) ∧
      (∀ i j old v, MemoEvent.store i j old v ∈ ev →
        v = phi dna scenarioCosts (Buf.ofList ['G', '-', 'N']) 2 (Buf.ofList ['C']) 1 i j) ∧
      (∀ i j v, c.memo.get i j = some v → v = NOT_YET_COMPUTED ∨
        v = phi dna scenarioCosts (Buf.ofList ['G', '-', 'N']) 2 (Buf.ofList ['C']) 1 i j) :=
  ⟨⟨rfl, rfl, fun _ _ _ _ => rfl, by decide⟩,
    memo_returns_suffix_recurrence dna scenarioCosts _ 2 _ 1 (freshMemo 2 1) 4 rfl rfl
      (fun _ _ _ _ => rfl) (by decide)⟩

section Advance

variable {M N s0 : Nat}

theorem MemoFull.close {X Y : Buf} {t1 : Table} (h : MemoFull M N t1) {i j : Nat}
    (hi : i ≤ M) (hj : j ≤ N) (v : Int) (log L ev : List MemoEvent)
    (hL : L = log ++ ev) (hev : ∀ e ∈ ev, MemoEvent.Advances M N s0 e) :
    ∃ w t' ev', ((t1.set i j v).bind fun memo => (memo.get i j).bind fun w =>
        some (w, (⟨X, Y, M, N, memo⟩ : NW_MemoContext),
          L ++ [MemoEvent.store i j (t1.get i j) v])) =
          some (w, ⟨X, Y, M, N, t'⟩, log ++ ev') ∧
      MemoFull M N t' ∧ ∀ e ∈ ev', MemoEvent.Advances M N s0 e := by
  obtain ⟨hr, hc, hcells⟩ := h
  have h1 : i < t1.rows := by omega
  have h2 : j < t1.cols := by omega
  refine ⟨v, ⟨t1.rows, t1.cols, fun a b => if a = i ∧ b = j then some v else t1.cell a b⟩,
    ev ++ [MemoEvent.store i j (t1.get i j) v], ?_, ⟨hr, hc, ?_⟩, ?_⟩
  · simp [Table.set, Table.get, h1, h2, hL]
  · intro a b ha hb
    show ∃ w, (if a = i ∧ b = j then some v else t1.cell a b) = some w
    split
    · exact ⟨v, rfl⟩
    · exact hcells a b ha hb
  · intro e he
    rcases List.mem_append.1 he with h | h
    · exact hev e h
    · rw [List.mem_singleton.1 h]; trivial

theorem advances_cons {ev : List MemoEvent} {c : MemoEvent}
    (hc : MemoEvent.Advances M N s0 c) (h : ∀ e ∈ ev, MemoEvent.Advances M N s0 e) :
    ∀ e ∈ [c] ++ ev, MemoEvent.Advances M N s0 e := by
  intro e he
  rcases List.mem_append.1 he with h' | h'
  · rw [List.mem_singleton.1 h']; exact hc
  · exact h e h'

theorem advances_append {ev1 ev2 : List MemoEvent}
    (h1 : ∀ e ∈ ev1, MemoEvent.Advances M N s0 e)
    (h2 : ∀ e ∈ ev2, MemoEvent.Advances M N s0 e) :
    ∀ e ∈ ev1 ++ ev2, MemoEvent.Advances M N s0 e := by
  intro e he
  rcases List.mem_append.1 he with h | h
  · exact h1 e h
  · exact h2 e h

end Advance

/-- Whatever the cells of the memo table hold, the traced recursion returns once the fuel
exceeds `(M - i) + (N - j)`, and each of its recursive calls advances inside the table. -/
theorem recMemoTraced_advances (cl : Classifier) (k : Costs) (X : Buf) (M : Nat) (Y : Buf)
    (N : Nat) (s0 : Nat) :
    ∀ fuel i j t d log, i ≤ M → j ≤ N → (M - i) + (N - j) < fuel → d + s0 ≤ i + j →
      MemoFull M N t →
      ∃ v t' ev, EditDistance_NW_RecMemoTraced cl k fuel ⟨X, Y, M, N, t⟩ i j d log =
          some (v, ⟨X, Y, M, N, t'⟩, log ++ ev) ∧
        MemoFull M N t' ∧ ∀ e ∈ ev, MemoEvent.Advances M N s0 e := by
  intro fuel
  induction fuel with
  | zero => intro i j t d log _ _ h; omega
  | succ fuel ih =>
    intro i j t d log hi hj hf hd ht
    obtain ⟨m, hcell⟩ := ht.2.2 i j hi hj
    have hm : t.get i j = some m := by
      have h1 : i < t.rows := by have := ht.1; omega
      have h2 : j < t.cols := by have := ht.2.1; omega
      simp [Table.get, h1, h2, hcell]
    simp only [EditDistance_NW_RecMemoTraced, hm, Option.some_bind]
    by_cases hN : m = NOT_YET_COMPUTED
    · simp only [hN, if_true]
      by_cases hiM : i = M
      · by_cases hjN : j = N
        · subst hiM; subst hjN
          simp only [if_true, Option.some_bind]
          exact ht.close hi hj _ log log [] (by simp) (by simp)
        · subst hiM
          obtain ⟨v1, t1, ev1, e1, f1, a1⟩ := ih i (j + 1) t (d + 1)
            (log ++ [MemoEvent.call i j i (j + 1) (d + 1)])
            hi (by omega) (by omega) (by omega) ht
          have hc : MemoEvent.Advances i N s0 (MemoEvent.call i j i (j + 1) (d + 1)) :=
            ⟨by omega, by omega, by omega, by omega, by omega, by omega⟩
          simp only [hjN, if_true, if_false, e1, Option.some_bind]
          exact f1.close hi hj _ log _ _ (by simp [List.append_assoc]) (advances_cons hc a1)
      · by_cases hjN : j = N
        · subst hjN
          obtain ⟨v1, t1, ev1, e1, f1, a1⟩ := ih (i + 1) j t (d + 1)
            (log ++ [MemoEvent.call i j (i + 1) j (d + 1)])
            (by omega) hj (by omega) (by omega) ht
          have hc : MemoEvent.Advances M j s0 (MemoEvent.call i j (i + 1) j (d + 1)) :=
            ⟨by omega, by omega, by omega, by omega, by omega, by omega⟩
          simp only [hiM, if_true, if_false, e1, Option.some_bind]
          exact f1.close hi hj _ log _ _ (by simp [List.append_assoc]) (advances_cons hc a1)
        · simp only [hiM, hjN, if_false]
          have hc1 : MemoEvent.Advances M N s0
              (MemoEvent.call i j (i + 1) (j + 1) (d + 1)) :=
            ⟨by omega, by omega, by omega, by omega, by omega, by omega⟩
          have hc2 : MemoEvent.Advances M N s0 (MemoEvent.call i j (i + 1) j (d + 1)) :=
            ⟨by omega, by omega, by omega, by omega, by omega, by omega⟩
          have hc3 : MemoEvent.Advances M N s0 (MemoEvent.call i j i (j + 1) (d + 1)) :=
            ⟨by omega, by omega, by omega, by omega, by omega, by omega⟩
          by_cases hX : cl.isBase (X i)
          · by_cases hY : cl.isBase (Y j)
            · obtain ⟨v1, t1, ev1, e1, f1, a1⟩ := ih (i + 1) (j + 1) t (d + 1)
                (log ++ [MemoEvent.call i j (i + 1) (j + 1) (d + 1)])
                (by omega) (by omega) (by omega) (by omega) ht
              obtain ⟨v2, t2, ev2, e2, f2, a2⟩ := ih (i + 1) j t1 (d + 1)
                ((log ++ [MemoEvent.call i j (i + 1) (j + 1) (d + 1)] ++ ev1) ++
                  [MemoEvent.call i j (i + 1) j (d + 1)])
                (by omega) (by omega) (by omega) (by omega) f1
              obtain ⟨v3, t3, ev3, e3, f3, a3⟩ := ih i (j + 1) t2 (d + 1)
                (((log ++ [MemoEvent.call i j (i + 1) (j + 1) (d + 1)] ++ ev1) ++
                  [MemoEvent.call i j (i + 1) j (d + 1)] ++ ev2) ++
                  [MemoEvent.call i j i (j + 1) (d + 1)])
                (by omega) (by omega) (by omega) (by omega) f2
              simp only [hX, hY, Bool.not_true, Bool.false_eq_true, if_false, e1, e2, e3,
                Option.some_bind]
              exact f3.close hi hj _ log _ _ (by simp [List.append_assoc])
                (advances_append (advances_cons hc1 a1)
                  (advances_append (advances_cons hc2 a2) (advances_cons hc3 a3)))
            · obtain ⟨v1, t1, ev1, e1, f1, a1⟩ := ih i (j + 1) t (d + 1)
                (log ++ [MemoEvent.call i j i (j + 1) (d + 1)])
                (by omega) (by omega) (by omega) (by omega) ht
              simp only [hX, hY, Bool.not_true, Bool.not_false, Bool.false_eq_true, if_false,
                if_true, e1, Option.some_bind]
              exact f1.close hi hj _ log _ _ (by simp [List.append_assoc])
                (advances_cons hc3 a1)
          · obtain ⟨v1, t1, ev1, e1, f1, a1⟩ := ih (i + 1) j t (d + 1)
              (log ++ [MemoEvent.call i j (i + 1) j (d + 1)])
              (by omega) (by omega) (by omega) (by omega) ht
            simp only [hX, Bool.not_false, if_true, e1, Option.some_bind]
            exact f1.close hi hj _ log _ _ (by simp [List.append_assoc])
              (advances_cons hc2 a1)
    · simp only [hN, if_false]
      exact ⟨m, t, [], by simp, ht, by simp⟩

/-- C14: started at a position `(i, j)` with `i ≤ M` and `j ≤ N`, on a memo table whose
cells have all been assigned (whatever they hold), the recursion returns as soon as the
fuel (the number of nested invocations allowed) exceeds `(M - i) + (N - j)`; every
recursive call, made by an invocation at `(pi, pj)`, is at a position `(i', j')` with
`pi ≤ i' ≤ M`, `pj ≤ j' ≤ N` and `pi + pj < i' + j'`, which makes the measure
`(M - i) + (N - j)` decrease; and its nesting depth is at most `(M - i) + (N - j)`, hence at
most `M + N`. -/
theorem recursion_advances_and_ends (cl : Classifier) (k : Costs) (X : Buf) (M : Nat)
    (Y : Buf) (N : Nat) (t : Table) (i j fuel : Nat) (hr : t.rows = M + 1)
    (hc : t.cols = N + 1) (hall : ∀ a b, a ≤ M → b ≤ N → ∃ v, t.cell a b = some v)
    (hi : i ≤ M) (hj : j ≤ N) (hfuel : (M - i) + (N - j) < fuel) :
    ∃ v c ev, EditDistance_NW_RecMemo cl k fuel ⟨X, Y, M, N, t⟩ i j = some (v, c) ∧
      EditDistance_NW_RecMemoTraced cl k fuel ⟨X, Y, M, N, t⟩ i j 0 [] = some (v, c, ev) ∧
      ∀ pi pj i' j' d, MemoEvent.call pi pj i' j' d ∈ ev →
        pi ≤ i' ∧ i' ≤ M ∧ pj ≤ j' ∧ j' ≤ N ∧ pi + pj < i' + j' ∧
          (M - i') + (N - j') < (M - pi) + (N - pj) ∧
          d ≤ (M - i) + (N - j) ∧ d ≤ M + N := by
  obtain ⟨v, t', ev, e, -, r⟩ := recMemoTraced_advances cl k X M Y N (i + j) fuel i j t 0 []
    hi hj hfuel (by omega) ⟨hr, hc, hall⟩
  rw [List.nil_append] at e
  refine ⟨v, ⟨X, Y, M, N, t'⟩, ev, ?_, e, ?_⟩
  · rw [← recMemoTraced_erase cl k fuel _ i j 0 [], e]; rfl
  · intro pi pj i' j' d h
    obtain ⟨h1, h2, h3, h4, h5, h6⟩ := r _ h
    exact ⟨h1, h2, h3, h4, h5, by omega, by omega, by omega⟩

theorem recursion_advances_and_ends_witness :
    ((freshMemo 2 1).rows = 2 + 1 ∧ (freshMemo 2 1).cols = 1 + 1 ∧
      (∀ a b, a ≤ 2 → b ≤ 1 → ∃ v, (freshMemo 2 1).cell a b = some v) ∧
      0 ≤ 2 ∧ 0 ≤ 1 ∧ (2 - 0) + (1 - 0) < 4) ∧
    ∃ v c ev, EditDistance_NW_RecMemo dna scenarioCosts 4
        ⟨Buf.ofList ['G', 'N'], Buf.ofList ['C'], 2, 1, freshMemo 2 1⟩ 0 0 = some (v, c) ∧
      EditDistance_NW_RecMemoTraced dna scenarioCosts 4
        ⟨Buf.ofList ['G', 'N'], Buf.ofList ['C'], 2, 1, freshMemo 2 1⟩ 0 0 0 [] =
        some (v, c, ev) ∧
      ∀ pi pj i' j' d, MemoEvent.call pi pj i' j' d ∈ ev →
        pi ≤ i' ∧ i' ≤ 2 ∧ pj ≤ j' ∧ j' ≤ 1 ∧ pi + pj < i' + j' ∧
          (2 - i') + (1 - j') < (2 - pi) + (1 - pj) ∧
          d ≤ (2 - 0) + (1 - 0) ∧ d ≤ 2 + 1 :=
  ⟨⟨rfl, rfl, fun _ _ _ _ => ⟨_, rfl⟩, by decide, by decide, by decide⟩,
    recursion_advances_and_ends dna scenarioCosts _ 2 _ 1 (freshMemo 2 1) 0 0 4 rfl rfl
      (fun _ _ _ _ => ⟨_, rfl⟩) (by decide) (by decide) (by decide)⟩

/-- C15 fails on the code: a tile runs over the rows `I .. I + block_size` and the columns
`J .. J + block_size`, both ends included, while `I` and `J` advance by `block_size`, so
neighbouring tiles share a row or a column. With `lengthA = 2`, `lengthB = 1` and
`block_size = 1` the innermost body, which assigns `tableau[i][j]`, runs at `(1, 1)`,
`(2, 1)` and `(2, 1)` again: the cell `(2, 1)` is assigned twice. -/
theorem cache_aware_assigns_twice :
    cacheAwareSchedule 2 1 1 = some [TabEvent.column 1, TabEvent.column 2, TabEvent.row 1,
        TabEvent.cell 1 1, TabEvent.cell 2 1, TabEvent.cell 2 1] ∧
      List.count (TabEvent.cell 2 1) [TabEvent.column 1, TabEvent.column 2, TabEvent.row 1,
        TabEvent.cell 1 1, TabEvent.cell 2 1, TabEvent.cell 2 1] = 2 ∧
      cacheAwareTable dna (Buf.ofList ['G', 'A']) 2 (Buf.ofList ['C']) 1 1 =
        ((Table.alloc 3 2).set 0 0 0).bind fun t =>
          List.foldlM (tabStep dna (Buf.ofList ['G', 'A']) (Buf.ofList ['C'])) t
            [TabEvent.column 1, TabEvent.column 2, TabEvent.row 1,
              TabEvent.cell 1 1, TabEvent.cell 2 1, TabEvent.cell 2 1] := by
  have h : cacheAwareSchedule 2 1 1 = some [TabEvent.column 1, TabEvent.column 2,
      TabEvent.row 1, TabEvent.cell 1 1, TabEvent.cell 2 1, TabEvent.cell 2 1] := by decide
  refine ⟨h, by decide, ?_⟩
  rw [cacheAwareTable_factors, h]
  rfl

/-- C17, as stated, fails: with `block_size = 2^32 - 1` the update `J += block_size` takes
the `int` counter `J` from 1 to 0, whose test `J <= lengthB` passes. On two sequences of
length 1 the innermost body then runs at `(i, j) = (1, 0)`, where it reads
`tableau[0][-1]` and `B[-1]`: the indices are out of range, and the engine, which fails on
such an access, returns nothing. -/
theorem cache_aware_reads_out_of_range :
    toInt32 (sizeAdd 1 4294967295) = 0 ∧
      cacheAwareSchedule 1 1 4294967295 = some [TabEvent.column 1, TabEvent.row 1,
        TabEvent.cell 1 1, TabEvent.cell 1 0, TabEvent.cell 1 1, TabEvent.cell 0 1,
        TabEvent.cell 1 1, TabEvent.cell 0 0, TabEvent.cell 0 1, TabEvent.cell 1 0,
        TabEvent.cell 1 1] ∧
      ¬ TabEvent.InRange 1 1 (TabEvent.cell 1 0) ∧
      EditDistance_NW_cache_aware dna (Buf.ofList ['A']) 1 (Buf.ofList ['A']) 1 4294967295 =
        none := by
  refine ⟨by decide, by decide, ?_, by decide⟩
  intro h
  exact absurd h.2.2.1 (by decide)

/-- C17, amended: for every positive block size with which the `int` tile counters do not
wrap (`lengthA + block_size ≤ INT_MAX` and `lengthB + block_size ≤ INT_MAX`), the loops of
the cache-aware engine end; every loop body they execute has its indices in range
(`1 ≤ i ≤ lengthA` where `A[i-1]` and row `i` are used, `1 ≤ j ≤ lengthB` where `B[j-1]` and
column `j` are used), with `i_end ≤ lengthA` and `j_end ≤ lengthB`; the engine is the
execution of these bodies in order; and it returns a value, which in the checked table
tells that no access was out of range and no cell was read before being assigned. -/
theorem cache_aware_accesses_safe (cl : Classifier) (A : Buf) (lengthA : Nat) (B : Buf)
    (lengthB : Nat) (block_size : Nat) (hbs : 1 ≤ block_size)
    (hA : lengthA + block_size ≤ INT_MAX) (hB : lengthB + block_size ≤ INT_MAX) :
    ∃ es d, cacheAwareSchedule lengthA lengthB block_size = some es ∧
      (∀ e ∈ es, TabEvent.InRange lengthA lengthB e) ∧
      (∀ I : Int, 1 ≤ I → I ≤ lengthA →
        toInt32 (if sizeAdd I block_size < lengthA then sizeAdd I block_size else lengthA) ≤
          lengthA) ∧
      (∀ J : Int, 1 ≤ J → J ≤ lengthB →
        toInt32 (if sizeAdd J block_size < lengthB then sizeAdd J block_size else lengthB) ≤
          lengthB) ∧
      cacheAwareTable cl A lengthA B lengthB block_size =
        (((Table.alloc (lengthA + 1) (lengthB + 1)).set 0 0 0).bind fun t =>
          List.foldlM (tabStep cl A B) t es) ∧
      EditDistance_NW_cache_aware cl A lengthA B lengthB block_size = some d := by
  obtain ⟨es, e, h⟩ := cacheAwareSchedule_inRange lengthA lengthB block_size hbs hA hB
  refine ⟨es, _, e, h, ?_, ?_, ?_,
    cache_aware_eq cl A lengthA B lengthB block_size hbs hA hB⟩
  · intro I h1 h2
    rw [tile_end (by omega) h2 hA]
    omega
  · intro J h1 h2
    rw [tile_end (by omega) h2 hB]
    omega
  · rw [cacheAwareTable_factors, e]
    rfl

theorem cache_aware_accesses_safe_witness :
    (1 ≤ 2 ∧ 3 + 2 ≤ INT_MAX ∧ 2 + 2 ≤ INT_MAX) ∧
    ∃ es d, cacheAwareSchedule 3 2 2 = some es ∧
      (∀ e ∈ es, TabEvent.InRange 3 2 e) ∧
      (∀ I : Int, 1 ≤ I → I ≤ (3 : Nat) →
        toInt32 (if sizeAdd I 2 < 3 then sizeAdd I 2 else 3) ≤ (3 : Nat)) ∧
      (∀ J : Int, 1 ≤ J → J ≤ (2 : Nat) →
        toInt32 (if sizeAdd J 2 < 2 then sizeAdd J 2 else 2) ≤ (2 : Nat)) ∧
      cacheAwareTable dna (Buf.ofList ['G', '-', 'N']) 3 (Buf.ofList ['C', 'G']) 2 2 =
        (((Table.alloc (3 + 1) (2 + 1)).set 0 0 0).bind fun t =>
          List.foldlM (tabStep dna (Buf.ofList ['G', '-', 'N']) (Buf.ofList ['C', 'G'])) t es) ∧
      EditDistance_NW_cache_aware dna (Buf.ofList ['G', '-', 'N']) 3 (Buf.ofList ['C', 'G']) 2 2 =
        some d :=
  ⟨by decide,
    cache_aware_accesses_safe dna _ 3 _ 2 2 (by decide) (by decide) (by decide)⟩

end NW
